import Mathlib

/-!
Verification of the onloq capture pipeline.

This file gives a shallow embedding, in Lean 4, of the core capture pipeline
of the onloq repository:

* `src/logger/activity_logger.py` — the activity state tracker
  (`ActivityLogger._log_app_change`, `_check_idle_state`, `_monitor_loop`,
  `stop`),
* `src/logger/code_logger.py` — the trackability filter
  (`CodeChangeHandler._should_track_file`), the debouncer
  (`_debounced_change`), diff generation (`_generate_diff`, which delegates
  to Python `difflib.unified_diff`) and the change processor
  (`_process_file_change`).

Python floats for timestamps are modelled as natural numbers (whole
seconds); Python `int(x - y)` on such values coincides with truncated
natural subtraction.  Python dictionaries keyed by strings are modelled as
functions `String → Option _`.
-/

namespace Onloq

/-! ## Python primitives -/

/-- Truthiness of an optional Python string: `None` and `""` are falsy. -/
def truthyStr : Option String → Bool
  | none => false
  | some s => !(s == "")

/-- Truthiness of an optional Python number: `None` and `0` are falsy. -/
def truthyNat : Option Nat → Bool
  | none => false
  | some n => !(n == 0)

/-- Python list slice `l[i:j]` (on natural indices, `i ≤ j`). -/
def pySlice {α : Type} (l : List α) (i j : Nat) : List α :=
  (l.drop i).take (j - i)

/-! ## Activity events (`storage/database.py: Database.log_activity`)

An activity record as written by `Database.log_activity`.  System events
are stored by `log_system_event` in a separate table that has no duration
column; the spec data model treats them as `ActivityEvent`s with
`duration_seconds = 0`, which is how they are embedded here. -/

structure AEvent where
  eventType : String
  application : Option String := none
  windowTitle : Option String := none
  websiteDomain : Option String := none
  durationSeconds : Nat := 0
deriving DecidableEq, Repr

/-- Transient tracker state (`ActivityLogger.__init__` fields). -/
structure ActState where
  lastActivityTime : Nat
  currentApp : Option String
  currentWindow : Option String
  currentDomain : Option String
  appStartTime : Option Nat
deriving DecidableEq, Repr

/-- State right after `ActivityLogger.start()` set `last_activity_time`. -/
def initState (now : Nat) : ActState :=
  ⟨now, none, none, none, none⟩

/-- Embedding of `ActivityLogger._log_app_change`.  Note that the state
triple (including `current_domain`) is updated *before* the website-visit
comparison is evaluated, exactly as in the source. -/
def logAppChange (st : ActState) (now : Nat)
    (newApp newTitle newDomain : Option String) : ActState × List AEvent :=
  -- "if self.current_app and self.app_start_time:"
  let flushEvents :=
    if truthyStr st.currentApp && truthyNat st.appStartTime then
      let duration := now - (st.appStartTime.getD 0)
      if duration > 0 then
        [{ eventType := "app_focus", application := st.currentApp,
           windowTitle := st.currentWindow, websiteDomain := st.currentDomain,
           durationSeconds := duration }]
      else []
    else []
  -- "self.current_app = new_app ..." (state updated before the visit check)
  let st1 : ActState :=
    { st with currentApp := newApp, currentWindow := newTitle,
              currentDomain := newDomain, appStartTime := some now }
  -- "if new_domain and new_domain != self.current_domain:"
  let visitEvents :=
    if truthyStr newDomain && !(newDomain == st1.currentDomain) then
      [{ eventType := "website_visit", application := newApp,
         websiteDomain := newDomain }]
    else []
  (st1, flushEvents ++ visitEvents)

/-- Embedding of `ActivityLogger._check_idle_state`. -/
def checkIdle (st : ActState) (now idleThreshold : Nat) :
    ActState × List AEvent :=
  let elapsed := now - st.lastActivityTime
  if elapsed > idleThreshold then
    ({ st with lastActivityTime := now },
     [{ eventType := "idle", durationSeconds := elapsed }])
  else (st, [])

/-- Sampled foreground-window information, as returned by
`ActivityLogger._get_active_window_info`. -/
structure Sample where
  app : Option String
  title : Option String
  domain : Option String
deriving DecidableEq, Repr

/-- One iteration of `ActivityLogger._monitor_loop`: detect a change of the
sampled triple, then check the idle state. -/
def monitorTick (idleThreshold : Nat) (st : ActState) (now : Nat)
    (s : Sample) : ActState × List AEvent :=
  let c1 :=
    if !(s.app == st.currentApp) || !(s.title == st.currentWindow)
        || !(s.domain == st.currentDomain) then
      logAppChange st now s.app s.title s.domain
    else (st, [])
  let c2 := checkIdle c1.1 now idleThreshold
  (c2.1, c1.2 ++ c2.2)

/-- An externally observable step of a tracker run: either an input
callback firing (`on_activity`, which overwrites `last_activity_time`), or
one poll-loop tick at a given time with a given sample. -/
inductive TraceStep where
  | input (t : Nat)
  | tick (t : Nat) (s : Sample)
deriving DecidableEq, Repr

/-- Run a sequence of trace steps from a state, collecting events. -/
def runSteps (idleThreshold : Nat) : ActState → List TraceStep →
    ActState × List AEvent
  | st, [] => (st, [])
  | st, TraceStep.input t :: rest =>
      runSteps idleThreshold { st with lastActivityTime := t } rest
  | st, TraceStep.tick t s :: rest =>
      let c := monitorTick idleThreshold st t s
      let r := runSteps idleThreshold c.1 rest
      (r.1, c.2 ++ r.2)

/-- Embedding of the flush performed by `ActivityLogger.stop()` on the
in-progress focus interval (same computation as in `_log_app_change`). -/
def stopFlush (st : ActState) (now : Nat) : List AEvent :=
  if truthyStr st.currentApp && truthyNat st.appStartTime then
    let duration := now - (st.appStartTime.getD 0)
    if duration > 0 then
      [{ eventType := "app_focus", application := st.currentApp,
         windowTitle := st.currentWindow, websiteDomain := st.currentDomain,
         durationSeconds := duration }]
    else []
  else []

/-- Full run of the tracker: `start()` records a `session_start` system
event and initialises the input clock, the loop processes the trace, and
`stop()` flushes the final focus interval and records `session_end`. -/
def loggerRun (idleThreshold startTime : Nat) (steps : List TraceStep)
    (stopTime : Nat) : List AEvent :=
  let r := runSteps idleThreshold (initState startTime) steps
  [{ eventType := "system_event" }] ++ r.2 ++ stopFlush r.1 stopTime
    ++ [{ eventType := "system_event" }]

/-! ## Trackability filter (`code_logger.py: CodeChangeHandler._should_track_file`)

Paths are POSIX-style strings.  `pathlib.PurePath` semantics are embedded:
`parts` splits on `/` dropping empty and `.` components (keeping a leading
`/` as a root part), `name` is the last component, and `suffix` is the
part of the name from the last dot on, provided that dot is neither the
first nor the last character of the name. -/

/-- Split a character list at every occurrence of a separator (Python
`str.split(sep)` semantics: empty pieces are kept). -/
def splitCharAux (sep : Char) : List Char → List Char → List (List Char)
  | acc, [] => [acc.reverse]
  | acc, c :: rest =>
      if c = sep then acc.reverse :: splitCharAux sep [] rest
      else splitCharAux sep (c :: acc) rest

/-- The `/`-separated pieces of a path string. -/
def slashPieces (p : String) : List String :=
  (splitCharAux '/' [] p.data).map (fun cs => ⟨cs⟩)

/-- Whether the path string is absolute (begins with `/`). -/
def headIsSlash (p : String) : Bool :=
  match p.data with
  | '/' :: _ => true
  | _ => false

/-- Components of `pathlib.Path(p).parts`: the nonempty, non-`.` pieces,
preceded by the root `/` for an absolute path. -/
def pathParts (p : String) : List String :=
  let comps := (slashPieces p).filter (fun s => !(s == "") && !(s == "."))
  if headIsSlash p then "/" :: comps else comps

/-- The final component, `pathlib.Path(p).name` (empty for a bare root). -/
def pathName (p : String) : String :=
  ((((slashPieces p)).filter (fun s => !(s == "") && !(s == "."))).getLast?).getD ""

/-- Embedding of `pathlib.PurePath.suffix` on a file name:
`i = name.rfind(".")`; the suffix is `name[i:]` when `0 < i < len(name)-1`
and `""` otherwise. -/
def pySuffix (name : String) : String :=
  let cs := name.data
  let r := cs.reverse
  match r.findIdx? (fun c => c == '.') with
  | none => ""
  | some j => if 1 ≤ j ∧ j + 1 < cs.length then ⟨'.' :: (r.take j).reverse⟩ else ""

/-- Python `str.lower` restricted to ASCII (all configured extensions are
ASCII). -/
def asciiLower (s : String) : String :=
  ⟨s.data.map Char.toLower⟩

/-- Embedding of `CodeChangeHandler._should_track_file`: the suffix,
lower-cased, must be in the extension allowlist, and no path part may be a
member of the ignored-directory set. -/
def shouldTrackFile (fileExtensions ignoredDirs : List String)
    (filePath : String) : Bool :=
  if !(fileExtensions.contains (asciiLower (pySuffix (pathName filePath)))) then
    false
  else if (pathParts filePath).any (fun part => ignoredDirs.contains part) then
    false
  else
    true

/-- The default `file_extensions` list written by
`Config._load_or_create_default` (`utils/config.py`). -/
def defaultFileExtensions : List String :=
  [".py", ".js", ".ts", ".jsx", ".tsx", ".cpp", ".c", ".h", ".hpp",
   ".java", ".kt", ".swift", ".go", ".rs", ".php", ".rb", ".cs",
   ".html", ".css", ".scss", ".less", ".json", ".xml", ".yaml", ".yml",
   ".sql", ".md", ".txt", ".sh", ".bat", ".ps1", ".dockerfile"]

/-! ## Debouncer (`code_logger.py: CodeChangeHandler._debounced_change`)

A raw event for path `p` at time `t` with change type `ty` stores `ty` in
`change_queue[p]` and starts a timer thread that sleeps for the fixed
delay `D` and then, if `change_queue[p]` still equals *its own* captured
`ty`, calls `_process_file_change(p, ty)` and deletes the entry.

The embedding below simulates a *burst* for a single path: a list of
`(time, type)` events, in arrival order, all arriving within one quiet
window (the last arrival is earlier than `first arrival + D`).  Under that
premise every timer wakes strictly after the last arrival, so at every
wake the queue entry for `p` (until some timer deletes it) holds the type
of the last event, and the timers wake in arrival order (they all sleep
for the same `D`).  `fireTasks` walks the timers in that order with the
queue entry as state. -/

/-- Process the pending timers of a burst, in arrival order.  The first
argument is the current queue entry for the path (`none` once deleted);
each fired call is returned as `(type, wake time)`. -/
def fireTasks (D : Nat) : Option String → List (Nat × String) →
    List (String × Nat)
  | _, [] => []
  | none, _ :: rest => fireTasks D none rest
  | some q, (t, ty) :: rest =>
      if ty = q then (ty, t + D) :: fireTasks D none rest
      else fireTasks D (some q) rest

/-- Processing calls produced by a burst of events on one path: after all
arrivals the queue holds the type of the last event, then the timers fire
in order. -/
def debounceBurst (D : Nat) (events : List (Nat × String)) :
    List (String × Nat) :=
  match events.getLast? with
  | none => []
  | some lastEv => fireTasks D (some lastEv.2) events

/-- Arrival times of an event list are nondecreasing. -/
def timesSortedB : List (Nat × String) → Bool
  | [] => true
  | [_] => true
  | e :: f :: rest => decide (e.1 ≤ f.1) && timesSortedB (f :: rest)

/-- Boolean form of the burst premise. -/
def burstWithinWindowB (D : Nat) (events : List (Nat × String)) : Bool :=
  timesSortedB events &&
  (match events.head?, events.getLast? with
   | some e, some l => decide (l.1 < e.1 + D)
   | _, _ => true)

/-- Burst premise: arrival times are nondecreasing and the whole burst
fits in one quiet window — the last arrival is earlier than the first
arrival plus the delay, so every timer wakes after every arrival. -/
abbrev BurstWithinWindow (D : Nat) (events : List (Nat × String)) : Prop :=
  burstWithinWindowB D events = true

/-! ## Python `str.splitlines(keepends=True)` -/

/-- Line-boundary characters recognised by Python `str.splitlines`. -/
def isLineBreakChar (c : Char) : Bool :=
  c == '\n' || c == '\r' || c.toNat == 0x0B || c.toNat == 0x0C ||
  c.toNat == 0x1C || c.toNat == 0x1D || c.toNat == 0x1E ||
  c.toNat == 0x85 || c.toNat == 0x2028 || c.toNat == 0x2029

/-- Worker for `splitLines`; `acc` holds the current line reversed. -/
def splitLinesAux : List Char → List Char → List (List Char)
  | acc, [] => if acc = [] then [] else [acc.reverse]
  | acc, '\r' :: '\n' :: rest => (acc.reverse ++ ['\r', '\n']) :: splitLinesAux [] rest
  | acc, c :: rest =>
      if isLineBreakChar c then (acc.reverse ++ [c]) :: splitLinesAux [] rest
      else splitLinesAux (c :: acc) rest

/-- Python `s.splitlines(keepends=True)`: split at line boundaries, keeping
each terminator (with `\r\n` kept together) on its line. -/
def splitLines (s : String) : List String :=
  (splitLinesAux [] s.data).map (fun cs => ⟨cs⟩)

/-- Python `"".join(strings)`. -/
def strJoin (ls : List String) : String :=
  ⟨(ls.map String.data).flatten⟩

/-! ## Decimal rendering (Python `"{}".format(n)` for a nonnegative int) -/

/-- The decimal digit character for `d % 10`. -/
def digitChar : Nat → Char
  | 0 => '0' | 1 => '1' | 2 => '2' | 3 => '3' | 4 => '4'
  | 5 => '5' | 6 => '6' | 7 => '7' | 8 => '8' | _ => '9'

/-- Fuelled decimal digits of `n`, most significant first. -/
def natDecAux : Nat → Nat → List Char
  | 0, _ => []
  | fuel + 1, n =>
      if n < 10 then [digitChar n]
      else natDecAux fuel (n / 10) ++ [digitChar (n % 10)]

/-- Decimal rendering of a natural number. -/
def natDec (n : Nat) : String := ⟨natDecAux (n + 1) n⟩

/-! ## `difflib.SequenceMatcher(None, a, b)`

The matcher is embedded generically over the element type.  Hash maps
keyed by elements or by integers are embedded as functions; `b2j`, a dict
from element to its (ascending) list of indices in `b`, is the filtered
index range.  With `isjunk = None` the junk set `bjunk` is empty, so the
two junk-extension loops of `find_longest_match` never fire and the
`not isbjunk(...)` conjuncts of the first two extension loops are
vacuously true; the embedding reflects that. -/

section SequenceMatcher

variable {α : Type} [DecidableEq α]

/-- Autojunk: an element of `b` is "popular" when `len(b) >= 200` and it
occurs more than `len(b) // 100 + 1` times. -/
def bPopular (b : List α) (x : α) : Bool :=
  decide (200 ≤ b.length) && decide (b.length / 100 + 1 < b.count x)

/-- The `b2j` mapping of `SequenceMatcher.__chain_b`: ascending indices of
`x` in `b`, with popular elements purged. -/
def b2j (b : List α) (x : α) : List Nat :=
  if bPopular b x then []
  else (List.range b.length).filter (fun j => decide (b[j]? = some x))

/-- A candidate match, `difflib.Match(a=besti, b=bestj, size=bestsize)`. -/
structure FLMatch where
  besti : Nat
  bestj : Nat
  bestsize : Nat
deriving DecidableEq, Repr

/-- Inner loop of `find_longest_match` for row `i`: fold over the
(ascending, range-restricted) occurrence list of `a[i]` in `b`, building
the new `j2len` dict and updating the best match.  Python reads
`j2len.get(j-1, 0)` where `j-1` may be `-1` (always absent), embedded by
the `j = 0` guard.  Python writes `i-k+1`, which is the natural number
`i + 1 - k` since `k ≤ i + 1` always holds. -/
def flmRow (j2len : Nat → Nat) (i : Nat) :
    List Nat → (Nat → Nat) → FLMatch → (Nat → Nat) × FLMatch
  | [], nj, best => (nj, best)
  | j :: js, nj, best =>
      let k := (if j = 0 then 0 else j2len (j - 1)) + 1
      let nj2 : Nat → Nat := fun q => if q = j then k else nj q
      let best2 : FLMatch :=
        if best.bestsize < k then ⟨i + 1 - k, j + 1 - k, k⟩ else best
      flmRow j2len i js nj2 best2

/-- Outer loop of `find_longest_match` over rows `alo ≤ i < ahi`.  Each row
starts from a fresh empty `newj2len` and the `j2len` of the previous
row. -/
def flmRows (a b : List α) (blo bhi : Nat) :
    List Nat → (Nat → Nat) → FLMatch → FLMatch
  | [], _, best => best
  | i :: is, j2len, best =>
      let js :=
        match a[i]? with
        | none => []
        | some ai => (b2j b ai).filter (fun j => decide (blo ≤ j) && decide (j < bhi))
      let r := flmRow j2len i js (fun _ => 0) best
      flmRows a b blo bhi is r.1 r.2

/-- First (backward) extension loop of `find_longest_match`; the fuel is
an upper bound on the number of iterations (`besti` itself suffices, as
each step decrements `besti`). -/
def extendBack (a b : List α) (alo blo : Nat) : Nat → FLMatch → FLMatch
  | 0, st => st
  | fuel + 1, st =>
      if alo < st.besti ∧ blo < st.bestj then
        match a[st.besti - 1]?, b[st.bestj - 1]? with
        | some x, some y =>
            if x = y then
              extendBack a b alo blo fuel
                ⟨st.besti - 1, st.bestj - 1, st.bestsize + 1⟩
            else st
        | _, _ => st
      else st

/-- Second (forward) extension loop of `find_longest_match`; fuel
`ahi - (besti + bestsize)` suffices, as each step increments
`bestsize`. -/
def extendFwd (a b : List α) (ahi bhi : Nat) : Nat → FLMatch → FLMatch
  | 0, st => st
  | fuel + 1, st =>
      if st.besti + st.bestsize < ahi ∧ st.bestj + st.bestsize < bhi then
        match a[st.besti + st.bestsize]?, b[st.bestj + st.bestsize]? with
        | some x, some y =>
            if x = y then
              extendFwd a b ahi bhi fuel
                ⟨st.besti, st.bestj, st.bestsize + 1⟩
            else st
        | _, _ => st
      else st

/-- Embedding of `SequenceMatcher.find_longest_match(alo, ahi, blo, bhi)`
(with the empty junk set of `SequenceMatcher(None, a, b)`). -/
def findLongestMatch (a b : List α) (alo ahi blo bhi : Nat) : FLMatch :=
  let dp := flmRows a b blo bhi (List.range' alo (ahi - alo)) (fun _ => 0)
    ⟨alo, blo, 0⟩
  let e1 := extendBack a b alo blo dp.besti dp
  extendFwd a b ahi bhi (ahi - (e1.besti + e1.bestsize)) e1

/-- Recursive collection of matching blocks, `SequenceMatcher.
get_matching_blocks` before merging.  Python keeps an explicit LIFO queue
of rectangles and sorts the collected triples at the end; since every
block found in the left sub-rectangle precedes the middle block, which
precedes every block of the right sub-rectangle (in both coordinates),
the sorted queue output equals this in-order recursion.  The fuel is an
upper bound on `(ahi - alo) + (bhi - blo)`, which strictly shrinks at
each recursive call; the top-level caller supplies enough fuel for it
never to run out. -/
def matchingBlocksFuel (a b : List α) :
    Nat → Nat → Nat → Nat → Nat → List (Nat × Nat × Nat)
  | 0, _, _, _, _ => []
  | fuel + 1, alo, ahi, blo, bhi =>
      let m := findLongestMatch a b alo ahi blo bhi
      if 1 ≤ m.bestsize then
        (if alo < m.besti ∧ blo < m.bestj then
          matchingBlocksFuel a b fuel alo m.besti blo m.bestj
         else []) ++
        [(m.besti, m.bestj, m.bestsize)] ++
        (if m.besti + m.bestsize < ahi ∧ m.bestj + m.bestsize < bhi then
          matchingBlocksFuel a b fuel (m.besti + m.bestsize) ahi
            (m.bestj + m.bestsize) bhi
         else [])
      else []

/-- The adjacent-block collapsing loop of `get_matching_blocks`, started
from the dummy `(0, 0, 0)`. -/
def mergeBlocksAux : Nat → Nat → Nat → List (Nat × Nat × Nat) →
    List (Nat × Nat × Nat)
  | i1, j1, k1, [] => if 1 ≤ k1 then [(i1, j1, k1)] else []
  | i1, j1, k1, (i2, j2, k2) :: rest =>
      if i1 + k1 = i2 ∧ j1 + k1 = j2 then mergeBlocksAux i1 j1 (k1 + k2) rest
      else
        (if 1 ≤ k1 then [(i1, j1, k1)] else []) ++ mergeBlocksAux i2 j2 k2 rest

/-- Embedding of `SequenceMatcher.get_matching_blocks`, including the
trailing sentinel `(len(a), len(b), 0)`. -/
def getMatchingBlocks (a b : List α) : List (Nat × Nat × Nat) :=
  mergeBlocksAux 0 0 0
    (matchingBlocksFuel a b (a.length + b.length + 1) 0 a.length 0 b.length)
  ++ [(a.length, b.length, 0)]

/-- An opcode `(tag, i1, i2, j1, j2)` as produced by `get_opcodes`. -/
structure Op where
  tag : String
  i1 : Nat
  i2 : Nat
  j1 : Nat
  j2 : Nat
deriving DecidableEq, Repr

/-- The loop of `SequenceMatcher.get_opcodes` over the matching blocks. -/
def opcodesAux : Nat → Nat → List (Nat × Nat × Nat) → List Op
  | _, _, [] => []
  | i, j, (ai, bj, size) :: rest =>
      let tag :=
        if i < ai ∧ j < bj then "replace"
        else if i < ai then "delete"
        else if j < bj then "insert"
        else ""
      (if tag = "" then [] else [⟨tag, i, ai, j, bj⟩])
      ++ (if 1 ≤ size then [⟨"equal", ai, ai + size, bj, bj + size⟩] else [])
      ++ opcodesAux (ai + size) (bj + size) rest

/-- Embedding of `SequenceMatcher.get_opcodes`. -/
def getOpcodes (a b : List α) : List Op :=
  opcodesAux 0 0 (getMatchingBlocks a b)

/-- Head fixup of `get_grouped_opcodes`: trim a leading `equal` opcode to
at most `n` lines of context. -/
def fixHead (n : Nat) : List Op → List Op
  | [] => []
  | c :: rest =>
      if c.tag = "equal" then
        ⟨c.tag, max c.i1 (c.i2 - n), c.i2, max c.j1 (c.j2 - n), c.j2⟩ :: rest
      else c :: rest

/-- Tail fixup of `get_grouped_opcodes`: trim a trailing `equal` opcode to
at most `n` lines of context. -/
def fixLast (n : Nat) : List Op → List Op
  | [] => []
  | [c] =>
      if c.tag = "equal" then
        [⟨c.tag, c.i1, min c.i2 (c.i1 + n), c.j1, min c.j2 (c.j1 + n)⟩]
      else [c]
  | c :: rest => c :: fixLast n rest

/-- Final yield of the grouping loop: `if group and not (len(group) == 1
and group[0][0] == 'equal'): yield group`. -/
def groupFinal (group : List Op) : List (List Op) :=
  match group with
  | [] => []
  | [c] => if c.tag = "equal" then [] else [[c]]
  | _ => [group]

/-- The grouping loop of `get_grouped_opcodes`: split whenever an `equal`
opcode spans more than `2n` lines, ending the current group with `n`
lines of trailing context and starting the next with `n` lines of leading
context. -/
def groupSplit (n : Nat) : List Op → List Op → List (List Op)
  | group, [] => groupFinal group
  | group, c :: rest =>
      if c.tag = "equal" ∧ n + n < c.i2 - c.i1 then
        (group ++ [⟨c.tag, c.i1, min c.i2 (c.i1 + n), c.j1, min c.j2 (c.j1 + n)⟩])
          :: groupSplit n
              [⟨c.tag, max c.i1 (c.i2 - n), c.i2, max c.j1 (c.j2 - n), c.j2⟩] rest
      else groupSplit n (group ++ [c]) rest

/-- Embedding of `SequenceMatcher.get_grouped_opcodes(n)`, including the
substitution of `[("equal", 0, 1, 0, 1)]` for an empty opcode list. -/
def getGroupedOpcodes (n : Nat) (a b : List α) : List (List Op) :=
  let codes0 := getOpcodes a b
  let codes1 := if codes0 = [] then [⟨"equal", 0, 1, 0, 1⟩] else codes0
  groupSplit n [] (fixLast n (fixHead n codes1))

end SequenceMatcher

/-! ## `difflib.unified_diff` and `_generate_diff` -/

/-- Embedding of `difflib._format_range_unified`. -/
def formatRangeUnified (start stop : Nat) : String :=
  let beginning := start + 1
  let rlen := stop - start
  if rlen = 1 then natDec beginning
  else if rlen = 0 then natDec (beginning - 1) ++ "," ++ natDec rlen
  else natDec beginning ++ "," ++ natDec rlen

/-- The lines yielded by `unified_diff` for one opcode of a group. -/
def renderOp (a b : List String) (c : Op) : List String :=
  if c.tag = "equal" then (pySlice a c.i1 c.i2).map (fun l => " " ++ l)
  else
    (if c.tag = "replace" ∨ c.tag = "delete" then
      (pySlice a c.i1 c.i2).map (fun l => "-" ++ l)
     else [])
    ++ (if c.tag = "replace" ∨ c.tag = "insert" then
         (pySlice b c.j1 c.j2).map (fun l => "+" ++ l)
        else [])

/-- The lines yielded by `unified_diff` for one group: the `@@` hunk
header (with `lineterm = ""`), then the tagged lines. -/
def renderGroup (a b : List String) (g : List Op) : List String :=
  match g with
  | [] => []
  | c0 :: _ =>
      let cl := g.getLastD c0
      ("@@ -" ++ formatRangeUnified c0.i1 cl.i2 ++ " +"
        ++ formatRangeUnified c0.j1 cl.j2 ++ " @@")
        :: (g.map (renderOp a b)).flatten

/-- The full sequence of strings yielded by
`difflib.unified_diff(a, b, fromfile, tofile, lineterm="")` with the
default `n = 3` context: the two file-header lines are produced once,
before the first group (so not at all when there are no groups). -/
def unifiedDiffLines (a b : List String) (fromfile tofile : String) :
    List String :=
  match getGroupedOpcodes 3 a b with
  | [] => []
  | g :: gs =>
      ("--- " ++ fromfile) :: ("+++ " ++ tofile)
        :: (((g :: gs).map (renderGroup a b)).flatten)

/-- Embedding of `CodeChangeHandler._generate_diff`: split both contents
with `splitlines(keepends=True)`, run `unified_diff` with
`a/<basename>` / `b/<basename>` labels and `lineterm = ""`, and
concatenate the yielded strings with `"".join`.  (The `None` guards of
the source cannot fire here, as contents are plain strings.) -/
def generateDiff (oldContent newContent filePath : String) : String :=
  strJoin (unifiedDiffLines (splitLines oldContent) (splitLines newContent)
    ("a/" ++ pathName filePath) ("b/" ++ pathName filePath))

/-! ## Applying a unified diff

Modelled from the spec: "the diff text, when applied to the old content,
must reproduce the new content exactly".  The repository generates diffs
but never applies them, so the applier below is the standard application
semantics of the line-oriented unified-diff format (glossary: "a
line-oriented patch format listing additions/removals with surrounding
context, headed by `a/`/`b/` file labels"): skip the two file-header
lines, then for each `@@ -start[,len] +start[,len] @@` hunk copy the
source lines up to `start`, and replay the hunk body, checking context
(` `) and removal (`-`) lines against the source and emitting context and
addition (`+`) lines.  It is applied to the sequence of lines yielded by
`unified_diff` (the structured diff, before `"".join`). -/

/-- Parse a nonempty all-digit character list as a decimal number. -/
def parseNatQ (cs : List Char) : Option Nat :=
  if cs ≠ [] ∧ cs.all (fun c => decide (48 ≤ c.toNat) && decide (c.toNat ≤ 57)) then
    some (cs.foldl (fun acc c => acc * 10 + (c.toNat - 48)) 0)
  else none

/-- Parse one side of a hunk header (`"S"`, or `"S,L"`); the result is the
0-based start index of the range in the file (`S - 1`, except for an
empty range, whose `S` is already the 0-based position). -/
def parseRangeStart (cs : List Char) : Option Nat :=
  let ds := cs.takeWhile (fun c => !(c == ','))
  let rest := cs.drop ds.length
  match parseNatQ ds with
  | none => none
  | some s =>
      match rest with
      | [] => some (s - 1)
      | c :: ls =>
          if c = ',' then
            match parseNatQ ls with
            | some 0 => some s
            | some _ => some (s - 1)
            | none => none
          else none

/-- Replay the hunk lines of a unified diff against the source lines,
starting at source position `pos`; `@@` headers copy the source gap up to
the hunk start, and the trailing source lines are copied at the end. -/
def applyHunks (src : List String) : Nat → List String → Option (List String)
  | pos, [] => some (src.drop pos)
  | pos, line :: rest =>
      match line.data with
      | '@' :: '@' :: ' ' :: '-' :: r =>
          match parseRangeStart (r.takeWhile (fun c => !(c == ' '))) with
          | none => none
          | some s =>
              if pos ≤ s then
                (applyHunks src s rest).map
                  (fun out => pySlice src pos s ++ out)
              else none
      | ' ' :: content =>
          match src[pos]? with
          | some l =>
              if l.data = content then
                (applyHunks src (pos + 1) rest).map (fun out => l :: out)
              else none
          | none => none
      | '-' :: content =>
          match src[pos]? with
          | some l =>
              if l.data = content then applyHunks src (pos + 1) rest
              else none
          | none => none
      | '+' :: content => (applyHunks src pos rest).map (fun out => ⟨content⟩ :: out)
      | _ => none

/-- Apply a unified diff, given as the sequence of lines yielded by
`unified_diff`, to the old content.  An empty diff changes nothing;
otherwise the `--- ` and `+++ ` file headers are checked and skipped and
the hunks are replayed over `splitlines(keepends=True)` of the old
content. -/
def applyUnifiedDiff (lines : List String) (old : String) : Option String :=
  match lines with
  | [] => some old
  | l1 :: l2 :: rest =>
      match l1.data, l2.data with
      | '-' :: '-' :: '-' :: ' ' :: _, '+' :: '+' :: '+' :: ' ' :: _ =>
          (applyHunks (splitLines old) 0 rest).map strJoin
      | _, _ => none
  | _ => none

/-! ## Change processor (`code_logger.py: CodeChangeHandler._process_file_change`)

The snapshot cache `self.file_cache` is embedded as a function
`String → Option String`; the filesystem is a parameter `disk` giving the
readable content of existing files (`none` when the file does not exist
or both decode attempts fail) and a size map `fsize` for
`os.path.getsize`. -/

/-- A record written by `Database.log_code_change`. -/
structure CodeEvent where
  filePath : String
  changeType : String
  fileSize : Option Nat
  diffContent : String
deriving DecidableEq, Repr

/-- Embedding of `CodeChangeHandler._process_file_change`: returns the
updated cache and the logged events. -/
def processFileChange (cache : String → Option String)
    (disk : String → Option String) (fsize : String → Nat)
    (exts ignored : List String) (filePath changeType : String) :
    (String → Option String) × List CodeEvent :=
  if !(shouldTrackFile exts ignored filePath) then (cache, [])
  else if changeType = "deleted" then
    let oldContent := (cache filePath).getD ""
    let diffContent := generateDiff oldContent "" filePath
    let cache2 : String → Option String :=
      fun q => if q = filePath then none else cache q
    if diffContent ≠ "" then
      (cache2, [⟨filePath, changeType, none, diffContent⟩])
    else (cache2, [])
  else if changeType = "created" ∨ changeType = "modified" then
    match disk filePath with
    | none => (cache, [])
    | some newContent =>
        let oldContent := (cache filePath).getD ""
        if oldContent ≠ newContent then
          let diffContent := generateDiff oldContent newContent filePath
          let cache2 : String → Option String :=
            fun q => if q = filePath then some newContent else cache q
          if diffContent ≠ "" then
            (cache2, [⟨filePath, changeType, some (fsize filePath), diffContent⟩])
          else (cache2, [])
        else (cache, [])
  else (cache, [])

/-! ## Specification predicates

The predicates below are the vocabulary in which the claims are stated
and proved; they are defined over the embedded functions above. -/

/-- Totals of `duration_seconds` over the AppFocus events of application
`A` in an event list. -/
def focusSum (A : String) (evs : List AEvent) : Nat :=
  ((evs.filter (fun e => e.eventType == "app_focus" && e.application == some A)).map
    (fun e => e.durationSeconds)).sum

/-- True dwell time of application `A` over a sampled run, computed from
the samples alone: each sample holds the foreground state until the next
sample time (the last until the stop time). -/
def dwell (A : String) : List (Nat × Sample) → Nat → Nat
  | [], _ => 0
  | [(t, s)], stop => if s.app == some A then stop - t else 0
  | (t1, s1) :: (t2, s2) :: rest, stop =>
      (if s1.app == some A then t2 - t1 else 0) + dwell A ((t2, s2) :: rest) stop

/-- Well-formed tick sequence: times are at least `lo` and strictly
increasing, each sampled application is truthy, and the last tick is no
later than the stop time. -/
def TicksOK : Nat → List (Nat × Sample) → Nat → Prop
  | lo, [], stop => lo ≤ stop
  | lo, (t, s) :: rest, stop => lo ≤ t ∧ truthyStr s.app = true ∧ TicksOK (t + 1) rest stop

/-- View a tick sequence as a trace (no intervening input callbacks). -/
def ticksToSteps (ticks : List (Nat × Sample)) : List TraceStep :=
  ticks.map (fun ts => TraceStep.tick ts.1 ts.2)

/-- Slices `a[i:i+k]` and `b[j:j+k]` exist and are equal elementwise. -/
def SliceEq {α : Type} (a b : List α) (i j k : Nat) : Prop :=
  ∀ t, t < k → ∃ x, a[i + t]? = some x ∧ b[j + t]? = some x

/-- The matching blocks form a monotone chain of genuine matches from
cursor `c` to bound `d`. -/
def ChainBlocks {α : Type} (a b : List α) :
    Nat × Nat → List (Nat × Nat × Nat) → Nat × Nat → Prop
  | c, [], d => c.1 ≤ d.1 ∧ c.2 ≤ d.2
  | c, (i, j, k) :: rest, d =>
      c.1 ≤ i ∧ c.2 ≤ j ∧ 1 ≤ k ∧ SliceEq a b i j k ∧
        ChainBlocks a b (i + k, j + k) rest d

/-- Wellformedness of a single opcode. -/
def TagOK {α : Type} (a b : List α) (c : Op) : Prop :=
  (c.tag = "equal" ∧ c.i1 ≤ c.i2 ∧ c.j1 ≤ c.j2 ∧ c.i2 - c.i1 = c.j2 - c.j1 ∧
     SliceEq a b c.i1 c.j1 (c.i2 - c.i1))
  ∨ (c.tag = "delete" ∧ c.i1 ≤ c.i2 ∧ c.j1 = c.j2)
  ∨ (c.tag = "insert" ∧ c.i1 = c.i2 ∧ c.j1 ≤ c.j2)
  ∨ (c.tag = "replace" ∧ c.i1 ≤ c.i2 ∧ c.j1 ≤ c.j2)

/-- A contiguous chain of wellformed opcodes from `(i, j)` to exactly
`d`. -/
def OpsValid {α : Type} (a b : List α) : Nat → Nat → List Op → Nat × Nat → Prop
  | i, j, [], d => i = d.1 ∧ j = d.2
  | i, j, c :: rest, d => c.i1 = i ∧ c.j1 = j ∧ TagOK a b c ∧
      OpsValid a b c.i2 c.j2 rest d

/-- A contiguous chain of wellformed opcodes from `(i, j)` whose end is
aligned with `d`: the remaining slices of `a` and `b` are equal. -/
def OpsTail {α : Type} (a b : List α) : Nat → Nat → List Op → Nat × Nat → Prop
  | i, j, [], d => i ≤ d.1 ∧ j ≤ d.2 ∧ d.1 - i = d.2 - j ∧ SliceEq a b i j (d.1 - i)
  | i, j, c :: rest, d => c.i1 = i ∧ c.j1 = j ∧ TagOK a b c ∧
      OpsTail a b c.i2 c.j2 rest d

/-- Alignment of a list of groups: before each group (and after the last)
the skipped regions of `a` and `b` are equal, and each group is a
nonempty wellformed opcode chain. -/
def Grouped {α : Type} (a b : List α) : Nat → Nat → List (List Op) → Nat × Nat → Prop
  | i, j, [], d => i ≤ d.1 ∧ j ≤ d.2 ∧ d.1 - i = d.2 - j ∧ SliceEq a b i j (d.1 - i)
  | i, j, g :: gs, d => ∃ i0 j0 i2 j2,
      i ≤ i0 ∧ j ≤ j0 ∧ i0 - i = j0 - j ∧ SliceEq a b i j (i0 - i) ∧
      g ≠ [] ∧ OpsValid a b i0 j0 g (i2, j2) ∧ Grouped a b i2 j2 gs d

/-- Soundness of a candidate match of `find_longest_match` for the
rectangle `[alo, ahi) × [blo, bhi)`: either the untouched initial dummy,
or a genuine in-bounds match. -/
def FLMOK {α : Type} (a b : List α) (alo ahi blo bhi : Nat) (m : FLMatch) : Prop :=
  (m.bestsize = 0 ∧ m.besti = alo ∧ m.bestj = blo) ∨
  (1 ≤ m.bestsize ∧ alo ≤ m.besti ∧ blo ≤ m.bestj ∧
   m.besti + m.bestsize ≤ ahi ∧ m.bestj + m.bestsize ≤ bhi ∧
   SliceEq a b m.besti m.bestj m.bestsize)

/-- Invariant of the `j2len` dictionary when `find_longest_match` is about
to process row `i`: an entry `f j = k ≥ 1` records a match of length `k`
ending at row `i - 1` and column `j`. -/
def J2Inv {α : Type} (a b : List α) (alo blo bhi i : Nat) (f : Nat → Nat) : Prop :=
  ∀ j, 1 ≤ f j →
    blo + f j ≤ j + 1 ∧ alo + f j ≤ i ∧ j < bhi ∧
    SliceEq a b (i - f j) (j + 1 - f j) (f j)

/-! ## Helper lemmas -/

theorem fireTasks_none (D : Nat) (evs : List (Nat × String)) :
    fireTasks D none evs = [] := by
  induction evs with
  | nil => rfl
  | cons e rest ih => simpa [fireTasks] using ih

theorem fireTasks_find (D : Nat) (ty : String) :
    ∀ (evs : List (Nat × String)) (e : Nat × String),
      evs.find? (fun x => x.2 == ty) = some e →
      fireTasks D (some ty) evs = [(ty, e.1 + D)] := by
  intro evs
  induction evs with
  | nil => intro e h; simp [List.find?] at h
  | cons x rest ih =>
      intro e h
      by_cases hx : x.2 = ty
      · rw [List.find?_cons_of_pos _ (by simpa using hx)] at h
        cases h
        simp [fireTasks, hx, fireTasks_none]
      · rw [List.find?_cons_of_neg _ (by simpa using hx)] at h
        simpa [fireTasks, hx] using ih e h

/-! ## Claim theorems -/

/-- C2 (counterexample): the burst `created(p)@0, modified(p)@5,
modified(p)@8` with a 1-unit-scaled quiet window of 10 lies within one
quiet window, yet the single processing call fires at time 15 — one quiet
period after the *second* event (the earliest whose type matches the
final `modified`) — and not at 18, one quiet period after the last event
as the claim states. -/
theorem C2_counterexample :
    BurstWithinWindow 10 [(0, "created"), (5, "modified"), (8, "modified")] ∧
    debounceBurst 10 [(0, "created"), (5, "modified"), (8, "modified")] =
      [("modified", 15)] ∧
    debounceBurst 10 [(0, "created"), (5, "modified"), (8, "modified")] ≠
      [("modified", 8 + 10)] := by
  refine ⟨by decide, by decide, by decide⟩

/-- C2 (amended): for a burst of events on one path within the quiet
window, the Debouncer makes exactly one processing call, carrying the
change type of the last event of the burst; the call fires one quiet
period after the *earliest* event of the burst whose change type equals
that last type (which is the last event itself only when no earlier event
of the burst shares its type). -/
theorem C2_debounce_single_call (D : Nat) (events : List (Nat × String))
    (t : Nat) (ty : String) (e : Nat × String)
    (hburst : BurstWithinWindow D events)
    (hlast : events.getLast? = some (t, ty))
    (hfind : events.find? (fun x => x.2 == ty) = some e) :
    debounceBurst D events = [(ty, e.1 + D)] := by
  unfold debounceBurst
  rw [hlast]
  exact fireTasks_find D ty events e hfind

/-- C2 witness: the amended theorem applied to the counterexample burst. -/
theorem C2_debounce_single_call_witness :
    debounceBurst 10 [(0, "created"), (5, "modified"), (8, "modified")] =
      [("modified", 5 + 10)] :=
  C2_debounce_single_call 10 _ 8 "modified" (5, "modified")
    (by decide) (by decide) (by decide)

/-- C3: on a poll tick, an Idle event is emitted iff the elapsed time
since the last recorded input exceeds the idle threshold; the event
carries `duration_seconds` equal to that elapsed time; and since
`last_input_time` is reset to `now` after firing, no tick up to a full
threshold later (without intervening input) can emit a second Idle
event. -/
theorem C3_idle_threshold (st : ActState) (now th : Nat) :
    (((checkIdle st now th).2 ≠ []) ↔ th < now - st.lastActivityTime) ∧
    (∀ e ∈ (checkIdle st now th).2,
        e.eventType = "idle" ∧ e.durationSeconds = now - st.lastActivityTime) ∧
    (th < now - st.lastActivityTime →
      ∀ later : Nat, later ≤ now + th →
        (checkIdle (checkIdle st now th).1 later th).2 = []) := by
  unfold checkIdle
  by_cases h : th < now - st.lastActivityTime
  · simp only [h, gt_iff_lt, if_pos]
    refine ⟨by simp, by simp, ?_⟩
    intro _ later hle
    have : ¬ th < later - now := by omega
    simp [this]
  · simp only [gt_iff_lt, if_neg h]
    exact ⟨by simp [h], by simp, fun hc => absurd hc h⟩

/-- C3 witness: with the default 300 s threshold, a tick at 301 s with
last input at 0 fires, and a tick at 601 s right after does not. -/
theorem C3_idle_threshold_witness :
    ((checkIdle (initState 0) 301 300).2 ≠ []) ∧
    (checkIdle (checkIdle (initState 0) 301 300).1 601 300).2 = [] :=
  ⟨((C3_idle_threshold (initState 0) 301 300).1).mpr (by decide),
   (C3_idle_threshold (initState 0) 301 300).2.2 (by decide) 601 (by decide)⟩

/-- C5: the trackability filter accepts a path iff its lower-cased
extension is in the allowlist and no path segment is a member of the
ignored-directory set (exact segment equality); in particular
`project/node_modules_backup/x.py`, whose middle segment merely contains
`node_modules` as a substring, is tracked, while
`project/node_modules/x.py` is not. -/
theorem C5_trackability (exts ignored : List String) (p : String) :
    (shouldTrackFile exts ignored p = true ↔
      (asciiLower (pySuffix (pathName p)) ∈ exts ∧
        ∀ part ∈ pathParts p, part ∉ ignored)) ∧
    shouldTrackFile [".py"] ["node_modules"]
      "project/node_modules_backup/x.py" = true ∧
    shouldTrackFile [".py"] ["node_modules"]
      "project/node_modules/x.py" = false := by
  refine ⟨?_, by decide, by decide⟩
  have hb : shouldTrackFile exts ignored p
      = (exts.contains (asciiLower (pySuffix (pathName p)))
          && !((pathParts p).any (fun part => ignored.contains part))) := by
    unfold shouldTrackFile
    cases hc : exts.contains (asciiLower (pySuffix (pathName p))) <;>
      cases ha : (pathParts p).any (fun part => ignored.contains part) <;> simp
  rw [hb]
  simp only [Bool.and_eq_true, Bool.not_eq_true', List.any_eq_false,
    List.elem_iff, decide_eq_true_eq]

/-- C6: the app-change handler updates the stored domain before the
website-visit comparison, so the comparison `new_domain !=
self.current_domain` is always false at that point, and no WebsiteVisit
event is ever emitted through the dedicated website-visit path, whatever
the state and the sampled triple. -/
theorem C6_website_visit_dead (st : ActState) (now : Nat)
    (a t d : Option String) :
    ∀ e ∈ (logAppChange st now a t d).2, e.eventType ≠ "website_visit" := by
  intro e he
  unfold logAppChange at he
  simp only [beq_self_eq_true, Bool.not_true, Bool.and_false,
    Bool.false_eq_true, if_false, List.append_nil] at he
  split at he
  · split at he
    · simp only [List.mem_singleton] at he
      subst he
      simp
    · simp at he
  · simp at he

/-- C6 witness: a concrete flush event produced by the handler is not a
WebsiteVisit. -/
theorem C6_website_visit_dead_witness :
    ({ eventType := "app_focus", application := some "code.exe",
       windowTitle := some "w", websiteDomain := none,
       durationSeconds := 7 } : AEvent).eventType ≠ "website_visit" :=
  C6_website_visit_dead ⟨0, some "code.exe", some "w", none, some 3⟩ 10
    (some "chrome.exe") (some "t") (some "github.com") _ (by decide)

theorem logAppChange_types (st : ActState) (now : Nat)
    (a t d : Option String) :
    ∀ e ∈ (logAppChange st now a t d).2,
      e.eventType = "app_focus" ∨ e.eventType = "idle" ∨ e.durationSeconds = 0 := by
  intro e he
  simp only [logAppChange, List.mem_append] at he
  rcases he with he | he
  · split at he
    · split at he
      · simp only [List.mem_singleton] at he
        subst he
        left
        rfl
      · simp at he
    · simp at he
  · split at he
    · simp only [List.mem_singleton] at he
      subst he
      right
      right
      rfl
    · simp at he

theorem checkIdle_types (st : ActState) (now th : Nat) :
    ∀ e ∈ (checkIdle st now th).2, e.eventType = "idle" := by
  intro e he
  simp only [checkIdle] at he
  split at he
  · simp only [List.mem_singleton] at he
    subst he
    rfl
  · simp at he

theorem runSteps_types (th : Nat) :
    ∀ (steps : List TraceStep) (st : ActState),
      ∀ e ∈ (runSteps th st steps).2,
        e.eventType = "app_focus" ∨ e.eventType = "idle" ∨ e.durationSeconds = 0 := by
  intro steps
  induction steps with
  | nil => intro st e he; simp [runSteps] at he
  | cons step rest ih =>
      intro st e he
      cases step with
      | input tm => exact ih _ e he
      | tick tm s =>
          simp only [runSteps, List.mem_append] at he
          rcases he with he | he
          · simp only [monitorTick, List.mem_append] at he
            rcases he with he | he
            · split at he
              · exact logAppChange_types _ _ _ _ _ e he
              · simp at he
            · exact Or.inr (Or.inl (checkIdle_types _ _ _ e he))
          · exact ih _ e he

theorem stopFlush_types (st : ActState) (now : Nat) :
    ∀ e ∈ stopFlush st now, e.eventType = "app_focus" := by
  intro e he
  simp only [stopFlush] at he
  split at he
  · split at he
    · simp only [List.mem_singleton] at he
      subst he
      rfl
    · simp at he
  · simp at he

/-- C9: every activity record of a full tracker run has a natural-number
(hence nonnegative) `duration_seconds`, and only AppFocus and Idle
records can carry a nonzero duration: WebsiteVisit and SystemEvent
records are always written with duration 0. -/
theorem C9_duration_invariant (th t0 stop : Nat) (steps : List TraceStep) :
    ∀ e ∈ loggerRun th t0 steps stop,
      e.eventType = "app_focus" ∨ e.eventType = "idle" ∨ e.durationSeconds = 0 := by
  intro e he
  unfold loggerRun at he
  simp only [List.mem_append, List.mem_singleton] at he
  rcases he with ((he | he) | he) | he
  · subst he; right; right; rfl
  · exact runSteps_types th steps _ e he
  · exact Or.inl (stopFlush_types _ _ e he)
  · subst he; right; right; rfl

/-- C9 witness: the session-start record of a concrete run is a
zero-duration system event. -/
theorem C9_duration_invariant_witness :
    ({ eventType := "system_event" } : AEvent).eventType = "app_focus" ∨
    ({ eventType := "system_event" } : AEvent).eventType = "idle" ∨
    ({ eventType := "system_event" } : AEvent).durationSeconds = 0 :=
  C9_duration_invariant 300 0 50 [] _ (by decide)

theorem exists_of_findIdxQ_eq_some {α : Type} (p : α → Bool) :
    ∀ (l : List α) (i j : Nat), List.findIdx? p l i = some j → ∃ x ∈ l, p x = true := by
  intro l
  induction l with
  | nil => intro i j h; simp at h
  | cons x xs ih =>
      intro i j h
      rw [List.findIdx?_cons] at h
      by_cases hp : p x
      · exact ⟨x, List.mem_cons_self _ _, hp⟩
      · simp only [hp, if_false, Bool.false_eq_true] at h
        obtain ⟨y, hy, hpy⟩ := ih (i + 1) j h
        exact ⟨y, List.mem_cons_of_mem _ hy, hpy⟩

/-- C10: a path whose final component contains no dot has an empty
`pathlib` suffix, so it is never tracked when the allowlist does not
contain the empty string — in particular `Dockerfile` is not tracked
under the default configuration even though that configuration lists
`.dockerfile` as a trackable extension. -/
theorem C10_extensionless_untracked (exts ignored : List String) (p : String)
    (hext : "" ∉ exts) (hdot : '.' ∉ (pathName p).data) :
    shouldTrackFile exts ignored p = false ∧
    ".dockerfile" ∈ defaultFileExtensions ∧
    ∀ ign : List String,
      shouldTrackFile defaultFileExtensions ign "Dockerfile" = false := by
  refine ⟨?_, by decide, ?_⟩
  · have hsuf : pySuffix (pathName p) = "" := by
      unfold pySuffix
      simp only []
      cases hfi : (pathName p).data.reverse.findIdx? (fun c => c == '.') with
      | none => rfl
      | some j =>
          exfalso
          obtain ⟨c, hc, hcp⟩ := exists_of_findIdxQ_eq_some _ _ _ _ hfi
          have : c = '.' := by simpa using hcp
          subst this
          exact hdot (List.mem_reverse.mp hc)
    unfold shouldTrackFile
    rw [hsuf]
    have hlower : asciiLower "" = "" := rfl
    rw [hlower]
    have hc : exts.contains "" = false := by
      cases hcc : exts.contains "" with
      | false => rfl
      | true => exact absurd (List.elem_iff.mp hcc) hext
    simp only [hc]
    simp only [Bool.not_false, if_true]
  · intro ign
    have hD : defaultFileExtensions.contains
        (asciiLower (pySuffix (pathName "Dockerfile"))) = false := by decide
    simp only [shouldTrackFile, hD, Bool.not_false, if_true]

/-- C10 witness: `src/Dockerfile` is rejected for a dotted allowlist. -/
theorem C10_extensionless_untracked_witness :
    shouldTrackFile [".py"] ["node_modules"] "src/Dockerfile" = false ∧
    ".dockerfile" ∈ defaultFileExtensions ∧
    ∀ ign : List String,
      shouldTrackFile defaultFileExtensions ign "Dockerfile" = false :=
  C10_extensionless_untracked [".py"] ["node_modules"] "src/Dockerfile"
    (by decide) (by decide)

theorem focusSum_append (A : String) (xs ys : List AEvent) :
    focusSum A (xs ++ ys) = focusSum A xs + focusSum A ys := by
  unfold focusSum
  rw [List.filter_append, List.map_append, List.sum_append]

theorem TicksOK_mono (stop : Nat) :
    ∀ (ticks : List (Nat × Sample)) (lo lo2 : Nat), lo2 ≤ lo →
      TicksOK lo ticks stop → TicksOK lo2 ticks stop := by
  intro ticks
  cases ticks with
  | nil => intro lo lo2 hle h; exact le_trans hle h
  | cons x rest =>
      intro lo lo2 hle h
      obtain ⟨h1, h2, h3⟩ := h
      exact ⟨le_trans hle h1, h2, h3⟩

theorem dwell_cons (A : String) (t : Nat) (s : Sample)
    (rest : List (Nat × Sample)) (stop : Nat) :
    dwell A ((t, s) :: rest) stop =
      (if s.app == some A then ((rest.head?.map Prod.fst).getD stop) - t else 0)
        + dwell A rest stop := by
  cases rest with
  | nil => simp [dwell]
  | cons y r => simp [dwell]

theorem checkIdle_preserves (st : ActState) (now th : Nat) :
    (checkIdle st now th).1.currentApp = st.currentApp ∧
    (checkIdle st now th).1.currentWindow = st.currentWindow ∧
    (checkIdle st now th).1.currentDomain = st.currentDomain ∧
    (checkIdle st now th).1.appStartTime = st.appStartTime := by
  unfold checkIdle
  simp only []
  split <;> simp

theorem focusSum_checkIdle (A : String) (st : ActState) (now th : Nat) :
    focusSum A (checkIdle st now th).2 = 0 := by
  unfold checkIdle
  simp only []
  split <;> simp [focusSum]

theorem focusSum_singleFlush (A : String) (app wt dom : Option String)
    (dur : Nat) :
    focusSum A [({ eventType := "app_focus", application := app,
                   windowTitle := wt, websiteDomain := dom,
                   durationSeconds := dur } : AEvent)]
      = if app == some A then dur else 0 := by
  unfold focusSum
  cases h : app == some A <;> simp [h]

theorem focusSum_logAppChange (A : String) (st : ActState) (now : Nat)
    (a t d : Option String)
    (h1 : truthyStr st.currentApp = true)
    (h2 : truthyNat st.appStartTime = true) :
    focusSum A (logAppChange st now a t d).2 =
      if st.currentApp == some A then now - st.appStartTime.getD 0 else 0 := by
  unfold logAppChange
  simp only []
  rw [focusSum_append]
  have hvisit : ∀ l : List AEvent,
      (∀ e ∈ l, e.eventType = "website_visit") → focusSum A l = 0 := by
    intro l hl
    unfold focusSum
    have : l.filter (fun e => e.eventType == "app_focus" && e.application == some A) = [] := by
      rw [List.filter_eq_nil_iff]
      intro e he
      have := hl e he
      simp [this]
    rw [this]
    rfl
  rw [h1, h2]
  simp only [Bool.and_self, if_true]
  split
  · rw [focusSum_singleFlush]
    have : focusSum A
        (if (truthyStr d && !(d == d)) = true then
          [{ eventType := "website_visit", application := a, websiteDomain := d }]
         else []) = 0 := by
      split
      · simp [focusSum]
      · simp [focusSum]
    rw [this]
    omega
  · have hz : now - st.appStartTime.getD 0 = 0 := by omega
    rw [hz]
    simp only [focusSum, List.filter_nil, List.map_nil, List.sum_nil]
    split
    · simp [focusSum]
    · simp [focusSum]

theorem focusSum_stopFlush (A : String) (st : ActState) (now : Nat)
    (h1 : truthyStr st.currentApp = true)
    (h2 : truthyNat st.appStartTime = true) :
    focusSum A (stopFlush st now) =
      if st.currentApp == some A then now - st.appStartTime.getD 0 else 0 := by
  unfold stopFlush
  rw [h1, h2]
  simp only [Bool.and_self, if_true]
  split
  · rw [focusSum_singleFlush]
  · have hz : now - st.appStartTime.getD 0 = 0 := by omega
    rw [hz]
    simp [focusSum]

theorem truthyNat_of_pos (n : Nat) (h : 1 ≤ n) : truthyNat (some n) = true := by
  simp only [truthyNat, Bool.not_eq_true']
  simp only [beq_eq_false_iff_ne, ne_eq]
  omega

theorem logAppChange_state (st : ActState) (now : Nat)
    (a t d : Option String) :
    (logAppChange st now a t d).1 =
      { st with currentApp := a, currentWindow := t, currentDomain := d,
                appStartTime := some now } := rfl

theorem monitorTick_changed (th : Nat) (st : ActState) (t : Nat) (s : Sample)
    (hch : (!(s.app == st.currentApp) || !(s.title == st.currentWindow)
        || !(s.domain == st.currentDomain)) = true) :
    monitorTick th st t s =
      ((checkIdle (logAppChange st t s.app s.title s.domain).1 t th).1,
       (logAppChange st t s.app s.title s.domain).2
         ++ (checkIdle (logAppChange st t s.app s.title s.domain).1 t th).2) := by
  unfold monitorTick
  simp only []
  rw [if_pos hch]

theorem monitorTick_same (th : Nat) (st : ActState) (t : Nat) (s : Sample)
    (hch : (!(s.app == st.currentApp) || !(s.title == st.currentWindow)
        || !(s.domain == st.currentDomain)) = false) :
    monitorTick th st t s =
      ((checkIdle st t th).1, [] ++ (checkIdle st t th).2) := by
  unfold monitorTick
  simp only []
  rw [if_neg (by simp [hch])]

theorem ticksToSteps_cons (x : Nat × Sample) (rest : List (Nat × Sample)) :
    ticksToSteps (x :: rest) = TraceStep.tick x.1 x.2 :: ticksToSteps rest := rfl

theorem focusSum_run (A : String) (th : Nat) :
    ∀ (ticks : List (Nat × Sample)) (st : ActState) (ts stop : Nat),
      st.appStartTime = some ts → 1 ≤ ts → truthyStr st.currentApp = true →
      TicksOK ts ticks stop →
      focusSum A ((runSteps th st (ticksToSteps ticks)).2
          ++ stopFlush (runSteps th st (ticksToSteps ticks)).1 stop)
        = (if st.currentApp == some A
            then ((ticks.head?.map Prod.fst).getD stop) - ts else 0)
          + dwell A ticks stop := by
  intro ticks
  induction ticks with
  | nil =>
      intro st ts stop hstart hts happ _
      simp only [ticksToSteps, List.map_nil, runSteps, List.nil_append]
      rw [focusSum_stopFlush A st stop happ (by rw [hstart]; exact truthyNat_of_pos ts hts)]
      simp [dwell, hstart]
  | cons x rest ih =>
      obtain ⟨t, s⟩ := x
      intro st ts stop hstart hts happ hok
      obtain ⟨hle, htruthy, hok2⟩ := hok
      have hthr : t ≤ (rest.head?.map Prod.fst).getD stop := by
        cases rest with
        | nil => simpa using Nat.le_of_succ_le hok2
        | cons y r =>
            obtain ⟨hy, _, _⟩ := hok2
            simpa using Nat.le_of_succ_le hy
      rw [ticksToSteps_cons]
      simp only [runSteps]
      by_cases hch : (!(s.app == st.currentApp) || !(s.title == st.currentWindow)
          || !(s.domain == st.currentDomain)) = true
      · rw [monitorTick_changed th st t s hch]
        simp only [List.append_assoc]
        rw [focusSum_append]
        rw [focusSum_logAppChange A st t s.app s.title s.domain happ
          (by rw [hstart]; exact truthyNat_of_pos ts hts)]
        rw [focusSum_append, focusSum_checkIdle]
        have hst2app : (checkIdle (logAppChange st t s.app s.title s.domain).1 t th).1.currentApp
            = s.app := by
          rw [(checkIdle_preserves _ _ _).1, logAppChange_state]
        have hst2start : (checkIdle (logAppChange st t s.app s.title s.domain).1 t th).1.appStartTime
            = some t := by
          rw [(checkIdle_preserves _ _ _).2.2.2, logAppChange_state]
        rw [ih _ t stop hst2start (le_trans hts hle)
          (by rw [hst2app]; exact htruthy)
          (TicksOK_mono stop rest (t + 1) t (Nat.le_succ t) hok2)]
        rw [hst2app, dwell_cons, hstart]
        simp only [List.head?_cons]
        simp
      · have hch2 : (!(s.app == st.currentApp) || !(s.title == st.currentWindow)
            || !(s.domain == st.currentDomain)) = false := by
          simpa using hch
        rw [monitorTick_same th st t s hch2]
        simp only [List.nil_append, List.append_assoc]
        rw [focusSum_append, focusSum_checkIdle]
        have happeq : s.app = st.currentApp := by
          simp only [Bool.or_eq_false_iff, Bool.not_eq_false'] at hch2
          exact eq_of_beq hch2.1.1
        have hst2app : (checkIdle st t th).1.currentApp = st.currentApp :=
          (checkIdle_preserves _ _ _).1
        have hst2start : (checkIdle st t th).1.appStartTime = some ts := by
          rw [(checkIdle_preserves _ _ _).2.2.2, hstart]
        rw [ih _ ts stop hst2start hts
          (by rw [hst2app]; exact happ)
          (TicksOK_mono stop rest (t + 1) ts (by omega) hok2)]
        rw [hst2app, dwell_cons, happeq]
        simp only [List.head?_cons]
        cases hA : st.currentApp == some A
        · simp [hA]
        · simp [hA]
          omega

theorem logAppChange_init_events (t0 now : Nat) (a t d : Option String) :
    (logAppChange (initState t0) now a t d).2 = [] := by
  unfold logAppChange initState
  simp [truthyStr]

theorem filter_appfocus_logAppChange (st : ActState) (now : Nat)
    (a t d : Option String)
    (h1 : truthyStr st.currentApp = true)
    (h2 : truthyNat st.appStartTime = true) :
    (logAppChange st now a t d).2.filter (fun e => e.eventType == "app_focus")
      = if 0 < now - st.appStartTime.getD 0 then
          [({ eventType := "app_focus", application := st.currentApp,
              windowTitle := st.currentWindow,
              websiteDomain := st.currentDomain,
              durationSeconds := now - st.appStartTime.getD 0 } : AEvent)]
        else [] := by
  unfold logAppChange
  simp only []
  rw [h1, h2]
  simp only [Bool.and_self, if_true]
  rw [List.filter_append]
  have hv : (if (truthyStr d && !(d == d)) = true then
      [({ eventType := "website_visit", application := a,
          websiteDomain := d } : AEvent)]
     else []).filter (fun e => e.eventType == "app_focus") = [] := by
    split <;> simp
  rw [hv, List.append_nil]
  split
  · simp
  · simp

theorem stopFlush_eq (st : ActState) (now : Nat)
    (h1 : truthyStr st.currentApp = true)
    (h2 : truthyNat st.appStartTime = true) :
    stopFlush st now
      = if 0 < now - st.appStartTime.getD 0 then
          [({ eventType := "app_focus", application := st.currentApp,
              windowTitle := st.currentWindow,
              websiteDomain := st.currentDomain,
              durationSeconds := now - st.appStartTime.getD 0 } : AEvent)]
        else [] := by
  unfold stopFlush
  rw [h1, h2]
  simp only [Bool.and_self, if_true]

/-- C4: when the sampled triple changes, the handler closes out the
previous interval — given a truthy previous application and focus start,
it logs exactly one AppFocus event carrying the *previous* app, title and
domain with `duration = now - focus_start` exactly when that duration is
positive, then sets the state to the new triple with focus start `now`;
`stop()` performs the same flush; consequently, over any full run on a
strictly increasing tick sequence, the summed AppFocus durations of each
application equal its true dwell time as computed from the samples
themselves (exactly, in this sampled model). -/
theorem C4_app_focus_durations (A : String) (th t0 : Nat) :
    (∀ (st : ActState) (now : Nat) (a t d : Option String),
      truthyStr st.currentApp = true → truthyNat st.appStartTime = true →
      ((logAppChange st now a t d).1.currentApp = a ∧
       (logAppChange st now a t d).1.currentWindow = t ∧
       (logAppChange st now a t d).1.currentDomain = d ∧
       (logAppChange st now a t d).1.appStartTime = some now) ∧
      ((logAppChange st now a t d).2.filter (fun e => e.eventType == "app_focus")
        = if 0 < now - st.appStartTime.getD 0 then
            [({ eventType := "app_focus", application := st.currentApp,
                windowTitle := st.currentWindow,
                websiteDomain := st.currentDomain,
                durationSeconds := now - st.appStartTime.getD 0 } : AEvent)]
          else [])) ∧
    (∀ (st : ActState) (now : Nat),
      truthyStr st.currentApp = true → truthyNat st.appStartTime = true →
      stopFlush st now
        = if 0 < now - st.appStartTime.getD 0 then
            [({ eventType := "app_focus", application := st.currentApp,
                windowTitle := st.currentWindow,
                websiteDomain := st.currentDomain,
                durationSeconds := now - st.appStartTime.getD 0 } : AEvent)]
          else []) ∧
    (∀ (t1 : Nat) (s1 : Sample) (rest : List (Nat × Sample)) (stop : Nat),
      1 ≤ t1 → TicksOK t1 ((t1, s1) :: rest) stop →
      focusSum A (loggerRun th t0 (ticksToSteps ((t1, s1) :: rest)) stop)
        = dwell A ((t1, s1) :: rest) stop) := by
  refine ⟨?_, ?_, ?_⟩
  · intro st now a t d h1 h2
    exact ⟨by rw [logAppChange_state]; exact ⟨rfl, rfl, rfl, rfl⟩,
      filter_appfocus_logAppChange st now a t d h1 h2⟩
  · intro st now h1 h2
    exact stopFlush_eq st now h1 h2
  · intro t1 s1 rest stop ht1 hok
    obtain ⟨hle1, htruthy1, hok2⟩ := hok
    have happnone : (s1.app == (initState t0).currentApp) = false := by
      cases hsa : s1.app with
      | none => rw [hsa] at htruthy1; simp [truthyStr] at htruthy1
      | some x => rfl
    have hch : (!(s1.app == (initState t0).currentApp)
        || !(s1.title == (initState t0).currentWindow)
        || !(s1.domain == (initState t0).currentDomain)) = true := by
      rw [happnone]
      simp
    unfold loggerRun
    simp only []
    rw [ticksToSteps_cons]
    simp only [runSteps]
    rw [monitorTick_changed th (initState t0) t1 s1 hch]
    simp only []
    rw [logAppChange_init_events t0 t1 s1.app s1.title s1.domain]
    simp only [List.nil_append]
    rw [focusSum_append, focusSum_append, focusSum_append, focusSum_append]
    have hsys : focusSum A [({ eventType := "system_event" } : AEvent)] = 0 := by
      simp [focusSum]
    have hidle : focusSum A
        (checkIdle (logAppChange (initState t0) t1 s1.app s1.title s1.domain).1 t1 th).2
        = 0 := focusSum_checkIdle _ _ _ _
    rw [hsys, hidle]
    have hst2app : (checkIdle (logAppChange (initState t0) t1 s1.app s1.title s1.domain).1
        t1 th).1.currentApp = s1.app := by
      rw [(checkIdle_preserves _ _ _).1, logAppChange_state]
    have hst2start : (checkIdle (logAppChange (initState t0) t1 s1.app s1.title s1.domain).1
        t1 th).1.appStartTime = some t1 := by
      rw [(checkIdle_preserves _ _ _).2.2.2, logAppChange_state]
    have hrun := focusSum_run A th rest
      (checkIdle (logAppChange (initState t0) t1 s1.app s1.title s1.domain).1 t1 th).1
      t1 stop hst2start ht1 (by rw [hst2app]; exact htruthy1)
      (TicksOK_mono stop rest (t1 + 1) t1 (Nat.le_succ t1) hok2)
    rw [focusSum_append] at hrun
    rw [hst2app] at hrun
    rw [dwell_cons]
    omega

/-- C4 witness: a two-tick run (focus from 1 to 4, then another app until
the stop flush at 10) credits exactly 3 seconds to the first
application. -/
theorem C4_app_focus_durations_witness :
    focusSum "code.exe" (loggerRun 300 0 (ticksToSteps
        [(1, ⟨some "code.exe", some "w", none⟩),
         (4, ⟨some "web.exe", some "w", none⟩)]) 10)
      = dwell "code.exe"
          [(1, ⟨some "code.exe", some "w", none⟩),
           (4, ⟨some "web.exe", some "w", none⟩)] 10 :=
  (C4_app_focus_durations "code.exe" 300 0).2.2 1
    ⟨some "code.exe", some "w", none⟩
    [(4, ⟨some "web.exe", some "w", none⟩)] 10 (by omega)
    ⟨by omega, by decide, ⟨by omega, by decide, (by decide : 4 + 1 ≤ 10)⟩⟩

/-! ## Lemmas on `splitLines`, `strJoin` and decimal rendering -/

set_option maxHeartbeats 1600000 in
theorem splitLinesAux_flatten :
    ∀ (acc cs : List Char), (splitLinesAux acc cs).flatten = acc.reverse ++ cs := by
  intro acc cs
  induction acc, cs using splitLinesAux.induct with
  | case1 => simp [splitLinesAux]
  | case2 acc h => simp [splitLinesAux, h]
  | case3 acc rest ih => simp [splitLinesAux, ih]
  | case4 acc c rest hne hbr ih => simp [splitLinesAux, hne, hbr, ih]
  | case5 acc c rest hne hbr ih => simp [splitLinesAux, hne, hbr, ih]

theorem strJoin_splitLines (s : String) : strJoin (splitLines s) = s := by
  unfold strJoin splitLines
  rw [List.map_map]
  have hmap : (String.data ∘ fun cs => (⟨cs⟩ : String)) = id := by
    funext cs
    rfl
  rw [hmap, List.map_id]
  rw [splitLinesAux_flatten [] s.data]
  rfl

theorem splitLines_inj {s t : String} (h : splitLines s = splitLines t) :
    s = t := by
  have hs := strJoin_splitLines s
  have ht := strJoin_splitLines t
  rw [h, ht] at hs
  exact hs.symm

theorem splitLines_eq_nil_iff (s : String) : splitLines s = [] ↔ s = "" := by
  constructor
  · intro h
    have hf := splitLinesAux_flatten [] s.data
    have haux : splitLinesAux [] s.data = [] := by
      have := congrArg (List.map String.data) h
      simpa [splitLines, List.map_map, List.map_eq_nil_iff] using h
    rw [haux] at hf
    simp at hf
    cases s
    simp at hf
    simp [hf]
  · intro h
    subst h
    rfl

theorem digitChar_toNat (d : Nat) (h : d < 10) :
    (digitChar d).toNat = 48 + d := by
  interval_cases d <;> rfl

theorem natDecAux_spec :
    ∀ (fuel n : Nat), n < fuel →
      natDecAux fuel n ≠ [] ∧
      (∀ c ∈ natDecAux fuel n, 48 ≤ c.toNat ∧ c.toNat ≤ 57) ∧
      (natDecAux fuel n).foldl (fun acc c => acc * 10 + (c.toNat - 48)) 0 = n := by
  intro fuel
  induction fuel with
  | zero => intro n h; omega
  | succ f ih =>
      intro n h
      unfold natDecAux
      by_cases h10 : n < 10
      · simp only [h10, if_pos]
        refine ⟨by simp, ?_, ?_⟩
        · intro c hc
          simp only [List.mem_singleton] at hc
          subst hc
          have := digitChar_toNat n h10
          omega
        · simp only [List.foldl_cons, List.foldl_nil]
          rw [digitChar_toNat n h10]
          omega
      · simp only [h10, if_false]
        have hdiv : n / 10 < f := by omega
        obtain ⟨hne, hdig, hval⟩ := ih (n / 10) hdiv
        have hmod : n % 10 < 10 := Nat.mod_lt _ (by omega)
        refine ⟨by simp, ?_, ?_⟩
        · intro c hc
          rw [List.mem_append] at hc
          rcases hc with hc | hc
          · exact hdig c hc
          · simp only [List.mem_singleton] at hc
            subst hc
            have := digitChar_toNat (n % 10) hmod
            omega
        · rw [List.foldl_append, hval]
          simp only [List.foldl_cons, List.foldl_nil]
          rw [digitChar_toNat (n % 10) hmod]
          omega

theorem natDec_chars (n : Nat) :
    ∀ c ∈ (natDec n).data, 48 ≤ c.toNat ∧ c.toNat ≤ 57 :=
  (natDecAux_spec (n + 1) n (by omega)).2.1

theorem parseNatQ_natDec (n : Nat) : parseNatQ (natDec n).data = some n := by
  obtain ⟨hne, hdig, hval⟩ := natDecAux_spec (n + 1) n (by omega)
  unfold natDec parseNatQ
  rw [if_pos]
  · exact congrArg some hval
  · refine ⟨hne, ?_⟩
    rw [List.all_eq_true]
    intro c hc
    obtain ⟨h1, h2⟩ := hdig c hc
    simp [h1, h2]

/-! ## Lemmas on slices -/

theorem sliceEq_zero {α : Type} (a b : List α) (i j : Nat) :
    SliceEq a b i j 0 := by
  intro t ht
  omega

theorem sliceEq_restrict {α : Type} {a b : List α} {i j k : Nat}
    (h : SliceEq a b i j k) (m : Nat) (hm : m ≤ k) : SliceEq a b i j m :=
  fun t ht => h t (lt_of_lt_of_le ht hm)

theorem sliceEq_shift {α : Type} {a b : List α} {i j k : Nat}
    (h : SliceEq a b i j k) (o : Nat) (ho : o ≤ k) :
    SliceEq a b (i + o) (j + o) (k - o) := by
  intro t ht
  have := h (o + t) (by omega)
  obtain ⟨x, hx1, hx2⟩ := this
  exact ⟨x, by rw [show i + o + t = i + (o + t) by omega]; exact hx1,
    by rw [show j + o + t = j + (o + t) by omega]; exact hx2⟩

theorem sliceEq_glue {α : Type} {a b : List α} {i j k m : Nat}
    (h1 : SliceEq a b i j k) (h2 : SliceEq a b (i + k) (j + k) m) :
    SliceEq a b i j (k + m) := by
  intro t ht
  by_cases hk : t < k
  · exact h1 t hk
  · obtain ⟨x, hx1, hx2⟩ := h2 (t - k) (by omega)
    exact ⟨x, by rw [show i + t = i + k + (t - k) by omega]; exact hx1,
      by rw [show j + t = j + k + (t - k) by omega]; exact hx2⟩

theorem sliceEq_bound {α : Type} {a b : List α} {i j k : Nat}
    (h : SliceEq a b i j k) (hk : 1 ≤ k) :
    i + k ≤ a.length ∧ j + k ≤ b.length := by
  cases k with
  | zero => omega
  | succ m =>
      obtain ⟨x, hx1, hx2⟩ := h m (by omega)
      have h1 := List.getElem?_eq_some_iff.mp hx1
      have h2 := List.getElem?_eq_some_iff.mp hx2
      obtain ⟨hl1, _⟩ := h1
      obtain ⟨hl2, _⟩ := h2
      omega

theorem pySlice_eq_of_sliceEq {α : Type} {a b : List α} {i j k : Nat}
    (h : SliceEq a b i j k) :
    pySlice a i (i + k) = pySlice b j (j + k) := by
  cases Nat.eq_zero_or_pos k with
  | inl hz =>
      subst hz
      unfold pySlice
      simp
  | inr hk =>
      obtain ⟨hba, hbb⟩ := sliceEq_bound h hk
      apply List.ext_getElem?
      intro t
      unfold pySlice
      rw [List.getElem?_take, List.getElem?_take]
      by_cases ht : t < (i + k) - i
      · have ht2 : t < (j + k) - j := by omega
        simp only [ht, ht2, if_pos]
        rw [List.getElem?_drop, List.getElem?_drop]
        obtain ⟨x, hx1, hx2⟩ := h t (by omega)
        rw [hx1, hx2]
      · have ht2 : ¬ t < (j + k) - j := by omega
        simp only [ht, ht2, if_false]

theorem drop_eq_of_sliceEq {α : Type} {a b : List α} {i j : Nat}
    (h : SliceEq a b i j (a.length - i))
    (hlen : a.length - i = b.length - j)
    (hia : i ≤ a.length) (hjb : j ≤ b.length) :
    a.drop i = b.drop j := by
  apply List.ext_getElem?
  intro t
  rw [List.getElem?_drop, List.getElem?_drop]
  by_cases ht : t < a.length - i
  · obtain ⟨x, hx1, hx2⟩ := h t ht
    rw [hx1, hx2]
  · rw [List.getElem?_eq_none (by omega), List.getElem?_eq_none (by omega)]

/-! ## Correctness of the embedded `SequenceMatcher` -/

theorem sliceEq_single {α : Type} {a b : List α} {i j : Nat} {x : α}
    (ha : a[i]? = some x) (hb : b[j]? = some x) : SliceEq a b i j 1 := by
  intro t ht
  have ht0 : t = 0 := by omega
  subst ht0
  exact ⟨x, by simpa using ha, by simpa using hb⟩

theorem mem_b2j {α : Type} [DecidableEq α] {b : List α} {x : α} {j : Nat}
    (h : j ∈ b2j b x) : b[j]? = some x := by
  unfold b2j at h
  split at h
  · simp at h
  · rw [List.mem_filter] at h
    exact of_decide_eq_true h.2

theorem J2Inv_update {α : Type} {a b : List α} {alo blo bhi i : Nat}
    {f : Nat → Nat} (hf : J2Inv a b alo blo bhi i f) (j K : Nat)
    (h1 : blo + K ≤ j + 1) (h2 : alo + K ≤ i) (h3 : j < bhi)
    (h4 : SliceEq a b (i - K) (j + 1 - K) K) :
    J2Inv a b alo blo bhi i (fun q => if q = j then K else f q) := by
  intro q hq
  simp only [] at hq ⊢
  by_cases hqj : q = j
  · rw [if_pos hqj] at hq ⊢
    subst hqj
    exact ⟨h1, h2, h3, h4⟩
  · rw [if_neg hqj] at hq ⊢
    exact hf q hq

theorem flmRow_ok {α : Type} [DecidableEq α] (a b : List α)
    (alo ahi blo bhi i : Nat) (ai : α) (j2len : Nat → Nat)
    (hai : a[i]? = some ai) (hialo : alo ≤ i) (hiahi : i < ahi)
    (hJ : J2Inv a b alo blo bhi i j2len) :
    ∀ (js : List Nat) (nj : Nat → Nat) (best : FLMatch),
      (∀ j ∈ js, blo ≤ j ∧ j < bhi ∧ b[j]? = some ai) →
      J2Inv a b alo blo bhi (i + 1) nj →
      FLMOK a b alo ahi blo bhi best →
      J2Inv a b alo blo bhi (i + 1) (flmRow j2len i js nj best).1 ∧
      FLMOK a b alo ahi blo bhi (flmRow j2len i js nj best).2 := by
  intro js
  induction js with
  | nil =>
      intro nj best _ hnj hbest
      exact ⟨hnj, hbest⟩
  | cons j rest ih =>
      intro nj best hall hnj hbest
      obtain ⟨hblo, hbhi, hbj⟩ := hall j (List.mem_cons_self j rest)
      have hk : ∃ K, ((if j = 0 then 0 else j2len (j - 1)) + 1) = K ∧
          1 ≤ K ∧ alo + K ≤ i + 1 ∧ blo + K ≤ j + 1 ∧
          SliceEq a b (i + 1 - K) (j + 1 - K) K := by
        by_cases hk0 : (if j = 0 then 0 else j2len (j - 1)) = 0
        · refine ⟨1, by rw [hk0], le_refl 1, by omega, by omega, ?_⟩
          have hs : SliceEq a b i j 1 := sliceEq_single hai hbj
          have e1 : i + 1 - 1 = i := by omega
          have e2 : j + 1 - 1 = j := by omega
          rw [e1, e2]
          exact hs
        · have hjne : j ≠ 0 := by
            intro hj0
            rw [if_pos hj0] at hk0
            exact hk0 rfl
          have hifeq : (if j = 0 then 0 else j2len (j - 1)) = j2len (j - 1) :=
            if_neg hjne
          have hk01 : 1 ≤ j2len (j - 1) := by omega
          obtain ⟨hb1, hb2, hb3, hslice⟩ := hJ (j - 1) hk01
          refine ⟨j2len (j - 1) + 1, by rw [hifeq], by omega, by omega, by omega, ?_⟩
          have e1 : i + 1 - (j2len (j - 1) + 1) = i - j2len (j - 1) := by omega
          have e2 : j + 1 - (j2len (j - 1) + 1) = j - j2len (j - 1) := by omega
          rw [e1, e2]
          have hsl2 : SliceEq a b (i - j2len (j - 1)) (j - j2len (j - 1))
              (j2len (j - 1)) := by
            have e3 : (j - 1) + 1 - j2len (j - 1) = j - j2len (j - 1) := by omega
            rw [e3] at hslice
            exact hslice
          have hsingle : SliceEq a b ((i - j2len (j - 1)) + j2len (j - 1))
              ((j - j2len (j - 1)) + j2len (j - 1)) 1 := by
            have e4 : (i - j2len (j - 1)) + j2len (j - 1) = i := by omega
            have e5 : (j - j2len (j - 1)) + j2len (j - 1) = j := by omega
            rw [e4, e5]
            exact sliceEq_single hai hbj
          exact sliceEq_glue hsl2 hsingle
      obtain ⟨K, hKeq, hK1, hKa, hKb, hKs⟩ := hk
      simp only [flmRow]
      rw [hKeq]
      apply ih
      · intro q hq
        exact hall q (List.mem_cons_of_mem j hq)
      · exact J2Inv_update hnj j K hKb hKa hbhi hKs
      · by_cases hcmp : best.bestsize < K
        · rw [if_pos hcmp]
          refine Or.inr ?_
          dsimp only
          exact ⟨hK1, by omega, by omega, by omega, by omega, hKs⟩
        · rw [if_neg hcmp]
          exact hbest

theorem flmRows_ok {α : Type} [DecidableEq α] (a b : List α)
    (alo ahi blo bhi : Nat) :
    ∀ (n i0 : Nat) (f : Nat → Nat) (best : FLMatch),
      alo ≤ i0 → i0 + n ≤ ahi →
      J2Inv a b alo blo bhi i0 f →
      FLMOK a b alo ahi blo bhi best →
      FLMOK a b alo ahi blo bhi
        (flmRows a b blo bhi (List.range' i0 n) f best) := by
  intro n
  induction n with
  | zero =>
      intro i0 f best _ _ _ hbest
      simpa [flmRows] using hbest
  | succ m ih =>
      intro i0 f best hlo hhi hJ hbest
      rw [List.range'_succ]
      simp only [flmRows]
      cases hai : a[i0]? with
      | none =>
          refine ih (i0 + 1) _ best (by omega) (by omega) ?_ hbest
          intro q hq
          simp only [flmRow] at hq
          simp at hq
      | some ai =>
          have hall : ∀ j ∈ (b2j b ai).filter
              (fun j => decide (blo ≤ j) && decide (j < bhi)),
              blo ≤ j ∧ j < bhi ∧ b[j]? = some ai := by
            intro j hj
            rw [List.mem_filter] at hj
            obtain ⟨hmem, hcond⟩ := hj
            rw [Bool.and_eq_true] at hcond
            exact ⟨of_decide_eq_true hcond.1, of_decide_eq_true hcond.2,
              mem_b2j hmem⟩
          have hrow := flmRow_ok a b alo ahi blo bhi i0 ai f hai (by omega)
            (by omega) hJ
            ((b2j b ai).filter (fun j => decide (blo ≤ j) && decide (j < bhi)))
            (fun _ => 0) best hall (by intro q hq; simp at hq) hbest
          exact ih (i0 + 1) _ _ (by omega) (by omega) hrow.1 hrow.2

theorem extendBack_ok {α : Type} [DecidableEq α] (a b : List α)
    (alo ahi blo bhi : Nat) :
    ∀ (fuel : Nat) (st : FLMatch), FLMOK a b alo ahi blo bhi st →
      FLMOK a b alo ahi blo bhi (extendBack a b alo blo fuel st) := by
  intro fuel
  induction fuel with
  | zero => intro st h; exact h
  | succ f ih =>
      intro st h
      simp only [extendBack]
      split
      · rename_i hlt
        cases ha : a[st.besti - 1]? with
        | none => exact h
        | some x =>
            cases hb : b[st.bestj - 1]? with
            | none => exact h
            | some y =>
                dsimp only
                by_cases hxy : x = y
                · rw [if_pos hxy]
                  apply ih
                  rcases h with ⟨hz, hia, hja⟩ | ⟨h1, h2, h3, h4, h5, h6⟩
                  · omega
                  · refine Or.inr ?_
                    dsimp only
                    refine ⟨by omega, by omega, by omega, by omega, by omega, ?_⟩
                    · subst hxy
                      have hsingle : SliceEq a b (st.besti - 1) (st.bestj - 1) 1 :=
                        sliceEq_single ha hb
                      have hrest : SliceEq a b ((st.besti - 1) + 1)
                          ((st.bestj - 1) + 1) st.bestsize := by
                        have e1 : (st.besti - 1) + 1 = st.besti := by omega
                        have e2 : (st.bestj - 1) + 1 = st.bestj := by omega
                        rw [e1, e2]
                        exact h6
                      have hglue := sliceEq_glue hsingle hrest
                      rw [Nat.add_comm] at hglue
                      exact hglue
                · rw [if_neg hxy]
                  exact h
      · exact h

theorem extendFwd_ok {α : Type} [DecidableEq α] (a b : List α)
    (alo ahi blo bhi : Nat) :
    ∀ (fuel : Nat) (st : FLMatch), FLMOK a b alo ahi blo bhi st →
      (alo ≤ st.besti ∧ blo ≤ st.bestj) →
      FLMOK a b alo ahi blo bhi (extendFwd a b ahi bhi fuel st) := by
  intro fuel
  induction fuel with
  | zero => intro st h _; exact h
  | succ f ih =>
      intro st h hlow
      simp only [extendFwd]
      split
      · rename_i hlt
        cases ha : a[st.besti + st.bestsize]? with
        | none => exact h
        | some x =>
            cases hb : b[st.bestj + st.bestsize]? with
            | none => exact h
            | some y =>
                dsimp only
                by_cases hxy : x = y
                · rw [if_pos hxy]
                  apply ih
                  · subst hxy
                    have hsingle : SliceEq a b (st.besti + st.bestsize)
                        (st.bestj + st.bestsize) 1 := sliceEq_single ha hb
                    rcases h with ⟨hz, hia, hja⟩ | ⟨h1, h2, h3, h4, h5, h6⟩
                    · refine Or.inr ⟨by dsimp only; omega, by dsimp only; omega,
                        by dsimp only; omega, by dsimp only; omega,
                        by dsimp only; omega, ?_⟩
                      dsimp only
                      simpa [hz] using hsingle
                    · refine Or.inr ⟨by dsimp only; omega, by dsimp only; omega,
                        by dsimp only; omega, by dsimp only; omega,
                        by dsimp only; omega, ?_⟩
                      dsimp only
                      exact sliceEq_glue h6 hsingle
                  · exact hlow
                · rw [if_neg hxy]
                  exact h
      · exact h

theorem findLongestMatch_ok {α : Type} [DecidableEq α] (a b : List α)
    (alo ahi blo bhi : Nat) (hab : alo ≤ ahi) (hbb : blo ≤ bhi) :
    FLMOK a b alo ahi blo bhi (findLongestMatch a b alo ahi blo bhi) := by
  unfold findLongestMatch
  simp only []
  have hdp : FLMOK a b alo ahi blo bhi
      (flmRows a b blo bhi (List.range' alo (ahi - alo)) (fun _ => 0)
        ⟨alo, blo, 0⟩) := by
    apply flmRows_ok a b alo ahi blo bhi (ahi - alo) alo (fun _ => 0)
      ⟨alo, blo, 0⟩ (le_refl alo) (by omega)
    · intro q hq
      simp at hq
    · exact Or.inl ⟨rfl, rfl, rfl⟩
  have hback := extendBack_ok a b alo ahi blo bhi
    (flmRows a b blo bhi (List.range' alo (ahi - alo)) (fun _ => 0)
      ⟨alo, blo, 0⟩).besti _ hdp
  apply extendFwd_ok a b alo ahi blo bhi _ _ hback
  rcases hback with ⟨_, hia, hja⟩ | ⟨_, h2, h3, _, _, _⟩
  · omega
  · exact ⟨h2, h3⟩

theorem chainBlocks_mono {α : Type} {a b : List α} :
    ∀ (xs : List (Nat × Nat × Nat)) (c c2 d : Nat × Nat),
      c2.1 ≤ c.1 → c2.2 ≤ c.2 →
      ChainBlocks a b c xs d → ChainBlocks a b c2 xs d := by
  intro xs
  cases xs with
  | nil =>
      intro c c2 d h1 h2 h
      exact ⟨le_trans h1 h.1, le_trans h2 h.2⟩
  | cons x rest =>
      intro c c2 d h1 h2 h
      obtain ⟨i, j, k⟩ := x
      obtain ⟨ha, hb, hc, hd, he⟩ := h
      exact ⟨le_trans h1 ha, le_trans h2 hb, hc, hd, he⟩

theorem chainBlocks_append {α : Type} {a b : List α} :
    ∀ (xs ys : List (Nat × Nat × Nat)) (c m d : Nat × Nat),
      ChainBlocks a b c xs m → ChainBlocks a b m ys d →
      ChainBlocks a b c (xs ++ ys) d := by
  intro xs
  induction xs with
  | nil =>
      intro ys c m d h1 h2
      rw [List.nil_append]
      exact chainBlocks_mono ys m c d h1.1 h1.2 h2
  | cons x rest ih =>
      intro ys c m d h1 h2
      obtain ⟨i, j, k⟩ := x
      obtain ⟨ha, hb, hc, hd, he⟩ := h1
      exact ⟨ha, hb, hc, hd, ih ys _ m d he h2⟩

theorem matchingBlocksFuel_chain {α : Type} [DecidableEq α] (a b : List α) :
    ∀ (fuel alo ahi blo bhi : Nat),
      alo ≤ ahi → blo ≤ bhi →
      (ahi - alo) + (bhi - blo) < fuel →
      ChainBlocks a b (alo, blo)
        (matchingBlocksFuel a b fuel alo ahi blo bhi) (ahi, bhi) := by
  intro fuel
  induction fuel with
  | zero => intro alo ahi blo bhi h1 h2 h3; omega
  | succ f ih =>
      intro alo ahi blo bhi h1 h2 h3
      simp only [matchingBlocksFuel]
      have hok := findLongestMatch_ok a b alo ahi blo bhi h1 h2
      split
      · rename_i hsz
        rcases hok with ⟨hz, _, _⟩ | ⟨hk1, hk2, hk3, hk4, hk5, hk6⟩
        · omega
        · have hmid : ChainBlocks a b
              ((findLongestMatch a b alo ahi blo bhi).besti,
               (findLongestMatch a b alo ahi blo bhi).bestj)
              ([((findLongestMatch a b alo ahi blo bhi).besti,
                 (findLongestMatch a b alo ahi blo bhi).bestj,
                 (findLongestMatch a b alo ahi blo bhi).bestsize)] ++
                (if (findLongestMatch a b alo ahi blo bhi).besti +
                      (findLongestMatch a b alo ahi blo bhi).bestsize < ahi ∧
                    (findLongestMatch a b alo ahi blo bhi).bestj +
                      (findLongestMatch a b alo ahi blo bhi).bestsize < bhi then
                  matchingBlocksFuel a b f
                    ((findLongestMatch a b alo ahi blo bhi).besti +
                      (findLongestMatch a b alo ahi blo bhi).bestsize) ahi
                    ((findLongestMatch a b alo ahi blo bhi).bestj +
                      (findLongestMatch a b alo ahi blo bhi).bestsize) bhi
                 else [])) (ahi, bhi) := by
            refine ⟨le_refl _, le_refl _, hk1, hk6, ?_⟩
            split
            · rename_i hg
              exact ih _ ahi _ bhi (by omega) (by omega) (by omega)
            · exact ⟨hk4, hk5⟩
          rw [List.append_assoc]
          split
          · rename_i hg
            refine chainBlocks_append _ _ _ _ _ ?_ hmid
            exact ih alo _ blo _ (by omega) (by omega) (by omega)
          · rename_i hg
            rw [List.nil_append]
            exact chainBlocks_mono _ _ _ _ hk2 hk3 hmid
      · exact ⟨h1, h2⟩

theorem mergeBlocksAux_chain {α : Type} {a b : List α} {d : Nat × Nat} :
    ∀ (blocks : List (Nat × Nat × Nat)) (i1 j1 k1 : Nat) (c : Nat × Nat),
      c.1 ≤ i1 → c.2 ≤ j1 → SliceEq a b i1 j1 k1 →
      ChainBlocks a b (i1 + k1, j1 + k1) blocks d →
      ChainBlocks a b c (mergeBlocksAux i1 j1 k1 blocks) d := by
  intro blocks
  induction blocks with
  | nil =>
      intro i1 j1 k1 c hc1 hc2 hs hch
      simp only [mergeBlocksAux]
      have hd1 : i1 + k1 ≤ d.1 := hch.1
      have hd2 : j1 + k1 ≤ d.2 := hch.2
      split
      · rename_i hk1
        exact ⟨hc1, hc2, hk1, hs, hch⟩
      · exact ⟨by omega, by omega⟩
  | cons x rest ih =>
      intro i1 j1 k1 c hc1 hc2 hs hch
      obtain ⟨i2, j2, k2⟩ := x
      obtain ⟨ha, hb, hk2, hs2, hrest⟩ := hch
      simp only [mergeBlocksAux]
      split
      · rename_i hadj
        apply ih i1 j1 (k1 + k2) c hc1 hc2
        · apply sliceEq_glue hs
          rw [hadj.1, hadj.2]
          exact hs2
        · rw [show i1 + (k1 + k2) = i2 + k2 by omega,
             show j1 + (k1 + k2) = j2 + k2 by omega]
          exact hrest
      · split
        · rename_i hk1
          refine ⟨hc1, hc2, hk1, hs, ?_⟩
          exact ih i2 j2 k2 (i1 + k1, j1 + k1) ha hb hs2 hrest
        · rename_i hk1
          rw [List.nil_append]
          apply ih i2 j2 k2 c (by omega) (by omega) hs2 hrest

theorem getMatchingBlocks_chain {α : Type} [DecidableEq α] (a b : List α) :
    ∃ blocks, getMatchingBlocks a b = blocks ++ [(a.length, b.length, 0)] ∧
      ChainBlocks a b (0, 0) blocks (a.length, b.length) := by
  refine ⟨_, rfl, ?_⟩
  apply mergeBlocksAux_chain _ 0 0 0 (0, 0) (le_refl 0) (le_refl 0)
    (sliceEq_zero a b 0 0)
  have := matchingBlocksFuel_chain a b (a.length + b.length + 1) 0 a.length
    0 b.length (by omega) (by omega) (by omega)
  simpa using this

theorem opcodesAux_valid {α : Type} {a b : List α} :
    ∀ (blocks : List (Nat × Nat × Nat)) (i j : Nat),
      ChainBlocks a b (i, j) blocks (a.length, b.length) →
      OpsValid a b i j (opcodesAux i j (blocks ++ [(a.length, b.length, 0)]))
        (a.length, b.length) := by
  intro blocks
  induction blocks with
  | nil =>
      intro i j hch
      obtain ⟨hia, hjb⟩ := hch
      rw [List.nil_append]
      simp only [opcodesAux]
      by_cases h1 : i < a.length ∧ j < b.length
      · rw [if_pos h1]
        simp only [if_neg (by simp : ¬("replace" : String) = ""), if_neg
          (by omega : ¬(1 : Nat) ≤ 0)]
        refine ⟨rfl, rfl, ?_, ?_⟩
        · right; right; right
          dsimp only
          exact ⟨rfl, by omega, by omega⟩
        · simp only [List.nil_append, List.append_nil, opcodesAux]
          exact ⟨by omega, by omega⟩
      · rw [if_neg h1]
        by_cases h2 : i < a.length
        · rw [if_pos h2]
          simp only [if_neg (by simp : ¬("delete" : String) = ""), if_neg
            (by omega : ¬(1 : Nat) ≤ 0)]
          refine ⟨rfl, rfl, ?_, ?_⟩
          · right; left
            dsimp only
            exact ⟨rfl, by omega, by omega⟩
          · simp only [List.nil_append, List.append_nil, opcodesAux]
            exact ⟨by omega, by omega⟩
        · rw [if_neg h2]
          by_cases h3 : j < b.length
          · rw [if_pos h3]
            simp only [if_neg (by simp : ¬("insert" : String) = ""), if_neg
              (by omega : ¬(1 : Nat) ≤ 0)]
            refine ⟨rfl, rfl, ?_, ?_⟩
            · right; right; left
              dsimp only
              exact ⟨rfl, by omega, by omega⟩
            · simp only [List.nil_append, List.append_nil, opcodesAux]
              exact ⟨by omega, by omega⟩
          · rw [if_neg h3]
            simp only [if_pos rfl, if_neg (by omega : ¬(1 : Nat) ≤ 0),
              List.nil_append, List.append_nil, opcodesAux]
            exact ⟨by omega, by omega⟩
  | cons blk rest ih =>
      intro i j hch
      obtain ⟨ai, bj, size⟩ := blk
      obtain ⟨hia, hjb, hsz, hsl, hrest⟩ := hch
      rw [List.cons_append]
      simp only [opcodesAux]
      rw [if_pos hsz]
      have htail := ih (ai + size) (bj + size) hrest
      have heq : OpsValid a b ai bj
          ([(⟨"equal", ai, ai + size, bj, bj + size⟩ : Op)] ++
            opcodesAux (ai + size) (bj + size)
              (rest ++ [(a.length, b.length, 0)])) (a.length, b.length) := by
        refine ⟨rfl, rfl, ?_, htail⟩
        left
        dsimp only
        refine ⟨rfl, by omega, by omega, by omega, ?_⟩
        simpa using hsl
      by_cases h1 : i < ai ∧ j < bj
      · rw [if_pos h1]
        simp only [if_neg (by simp : ¬("replace" : String) = "")]
        refine ⟨rfl, rfl, ?_, heq⟩
        right; right; right
        dsimp only
        exact ⟨rfl, by omega, by omega⟩
      · rw [if_neg h1]
        by_cases h2 : i < ai
        · rw [if_pos h2]
          simp only [if_neg (by simp : ¬("delete" : String) = "")]
          refine ⟨rfl, rfl, ?_, ?_⟩
          · right; left
            dsimp only
            exact ⟨rfl, by omega, by omega⟩
          · exact heq
        · rw [if_neg h2]
          by_cases h3 : j < bj
          · rw [if_pos h3]
            simp only [if_neg (by simp : ¬("insert" : String) = "")]
            refine ⟨rfl, rfl, ?_, ?_⟩
            · right; right; left
              dsimp only
              exact ⟨rfl, by omega, by omega⟩
            · exact heq
          · rw [if_neg h3]
            rw [if_pos rfl, List.nil_append]
            rw [show i = ai by omega, show j = bj by omega]
            exact heq

theorem getOpcodes_valid {α : Type} [DecidableEq α] (a b : List α) :
    OpsValid a b 0 0 (getOpcodes a b) (a.length, b.length) := by
  obtain ⟨blocks, heq, hch⟩ := getMatchingBlocks_chain a b
  unfold getOpcodes
  rw [heq]
  exact opcodesAux_valid blocks 0 0 hch

theorem tagOK_equal_facts {α : Type} {a b : List α} {c : Op}
    (h : TagOK a b c) (he : c.tag = "equal") :
    c.i1 ≤ c.i2 ∧ c.j1 ≤ c.j2 ∧ c.i2 - c.i1 = c.j2 - c.j1 ∧
      SliceEq a b c.i1 c.j1 (c.i2 - c.i1) := by
  rcases h with ⟨_, h1, h2, h3, h4⟩ | ⟨ht, _⟩ | ⟨ht, _⟩ | ⟨ht, _⟩
  · exact ⟨h1, h2, h3, h4⟩
  all_goals rw [ht] at he
  all_goals exact absurd he (by decide)

theorem opsValid_append {α : Type} {a b : List α} :
    ∀ (xs ys : List Op) (i j : Nat) (m d : Nat × Nat),
      OpsValid a b i j xs m → OpsValid a b m.1 m.2 ys d →
      OpsValid a b i j (xs ++ ys) d := by
  intro xs
  induction xs with
  | nil =>
      intro ys i j m d h1 h2
      obtain ⟨e1, e2⟩ := h1
      rw [List.nil_append, e1, e2]
      exact h2
  | cons c rest ih =>
      intro ys i j m d h1 h2
      obtain ⟨ha, hb, hc, hd⟩ := h1
      exact ⟨ha, hb, hc, ih ys c.i2 c.j2 m d hd h2⟩

theorem sliceEq_self_sub {α : Type} (a b : List α) (i j : Nat) :
    SliceEq a b i j (i - i) := by
  rw [Nat.sub_self]
  exact sliceEq_zero a b i j

theorem fixHead_ok {α : Type} {a b : List α} {d : Nat × Nat} (n : Nat) :
    ∀ (codes : List Op) (i j : Nat),
      OpsValid a b i j codes d →
      ∃ i0 j0, i ≤ i0 ∧ j ≤ j0 ∧ i0 - i = j0 - j ∧ SliceEq a b i j (i0 - i) ∧
        OpsValid a b i0 j0 (fixHead n codes) d := by
  intro codes i j h
  cases codes with
  | nil =>
      exact ⟨i, j, le_refl i, le_refl j, by omega, sliceEq_self_sub a b i j, h⟩
  | cons c rest =>
      obtain ⟨hi1, hj1, htag, hrest⟩ := h
      simp only [fixHead]
      by_cases hce : c.tag = "equal"
      · rw [if_pos hce]
        obtain ⟨hL1, hL2, hL3, hL4⟩ := tagOK_equal_facts htag hce
        refine ⟨max c.i1 (c.i2 - n), max c.j1 (c.j2 - n), by omega, by omega,
          by omega, ?_, ?_⟩
        · rw [show max c.i1 (c.i2 - n) - i = max c.i1 (c.i2 - n) - c.i1 by omega,
            show i = c.i1 from hi1.symm, show j = c.j1 from hj1.symm]
          exact sliceEq_restrict hL4 (max c.i1 (c.i2 - n) - c.i1) (by omega)
        · refine ⟨rfl, rfl, ?_, ?_⟩
          · left
            dsimp only
            refine ⟨hce, by omega, by omega, by omega, ?_⟩
            have hs := sliceEq_shift hL4 (max c.i1 (c.i2 - n) - c.i1) (by omega)
            rw [show c.i1 + (max c.i1 (c.i2 - n) - c.i1) = max c.i1 (c.i2 - n)
                by omega,
              show c.j1 + (max c.i1 (c.i2 - n) - c.i1) = max c.j1 (c.j2 - n)
                by omega,
              show c.i2 - c.i1 - (max c.i1 (c.i2 - n) - c.i1)
                = c.i2 - max c.i1 (c.i2 - n) by omega] at hs
            exact hs
          · exact hrest
      · rw [if_neg hce]
        exact ⟨i, j, le_refl i, le_refl j, by omega, sliceEq_self_sub a b i j,
          hi1, hj1, htag, hrest⟩

theorem fixLast_ok {α : Type} {a b : List α} {la lb : Nat} (n : Nat) :
    ∀ (codes : List Op) (i j : Nat),
      OpsValid a b i j codes (la, lb) →
      OpsTail a b i j (fixLast n codes) (la, lb) := by
  intro codes
  induction codes with
  | nil =>
      intro i j h
      obtain ⟨h1, h2⟩ := h
      simp only [fixLast, OpsTail]
      exact ⟨by omega, by omega, by omega, by
        rw [show la - i = i - i by omega]
        exact sliceEq_self_sub a b i j⟩
  | cons c rest ih =>
      intro i j h
      obtain ⟨hi1, hj1, htag, hrest⟩ := h
      cases rest with
      | nil =>
          obtain ⟨he1, he2⟩ := hrest
          simp only [fixLast]
          by_cases hce : c.tag = "equal"
          · rw [if_pos hce]
            obtain ⟨hL1, hL2, hL3, hL4⟩ := tagOK_equal_facts htag hce
            refine ⟨hi1, hj1, ?_, ?_⟩
            · left
              dsimp only
              refine ⟨hce, by omega, by omega, by omega, ?_⟩
              exact sliceEq_restrict hL4 (min c.i2 (c.i1 + n) - c.i1) (by omega)
            · dsimp only
              refine ⟨by omega, by omega, by omega, ?_⟩
              have hs := sliceEq_shift hL4 (min c.i2 (c.i1 + n) - c.i1) (by omega)
              rw [show c.i1 + (min c.i2 (c.i1 + n) - c.i1) = min c.i2 (c.i1 + n)
                  by omega,
                show c.j1 + (min c.i2 (c.i1 + n) - c.i1) = min c.j2 (c.j1 + n)
                  by omega,
                show c.i2 - c.i1 - (min c.i2 (c.i1 + n) - c.i1)
                  = la - min c.i2 (c.i1 + n) by omega] at hs
              exact hs
          · rw [if_neg hce]
            refine ⟨hi1, hj1, htag, ?_⟩
            refine ⟨by omega, by omega, by omega, ?_⟩
            rw [show la - c.i2 = c.i2 - c.i2 by omega]
            exact sliceEq_self_sub a b c.i2 c.j2
      | cons c2 rest2 =>
          simp only [fixLast]
          exact ⟨hi1, hj1, htag, ih c.i2 c.j2 hrest⟩

theorem tagOK_le {α : Type} {a b : List α} {c : Op} (h : TagOK a b c) :
    c.i1 ≤ c.i2 ∧ c.j1 ≤ c.j2 := by
  rcases h with ⟨_, h1, h2, _⟩ | ⟨_, h1, h2⟩ | ⟨_, h1, h2⟩ | ⟨_, h1, h2⟩ <;>
    omega

theorem opsValid_le {α : Type} {a b : List α} :
    ∀ (g : List Op) (i0 j0 : Nat) (d : Nat × Nat),
      OpsValid a b i0 j0 g d → i0 ≤ d.1 ∧ j0 ≤ d.2 := by
  intro g
  induction g with
  | nil =>
      intro i0 j0 d h
      obtain ⟨h1, h2⟩ := h
      omega
  | cons c rest ih =>
      intro i0 j0 d h
      obtain ⟨h1, h2, h3, h4⟩ := h
      have hc := tagOK_le h3
      have := ih c.i2 c.j2 d h4
      omega

theorem align_glue {α : Type} {a b : List α} {p q i0 j0 i j : Nat}
    (h1le : p ≤ i0) (h1q : q ≤ j0)
    (h1off : i0 - p = j0 - q) (h1s : SliceEq a b p q (i0 - p))
    (h2le : i0 ≤ i) (h2jle : j0 ≤ j)
    (h2off : i - i0 = j - j0) (h2s : SliceEq a b i0 j0 (i - i0)) :
    p ≤ i ∧ q ≤ j ∧ i - p = j - q ∧ SliceEq a b p q (i - p) := by
  refine ⟨by omega, by omega, by omega, ?_⟩
  have hg := sliceEq_glue h1s (by
    rw [show p + (i0 - p) = i0 by omega, show q + (i0 - p) = j0 by omega]
    exact h2s)
  rw [show i - p = (i0 - p) + (i - i0) by omega]
  exact hg

theorem groupSplit_ok {α : Type} {a b : List α} {la lb : Nat} (n : Nat) :
    ∀ (codes group : List Op) (p q i0 j0 i j : Nat),
      p ≤ i0 → q ≤ j0 → i0 - p = j0 - q → SliceEq a b p q (i0 - p) →
      (group = [] → i0 = i ∧ j0 = j) →
      (group ≠ [] → OpsValid a b i0 j0 group (i, j)) →
      OpsTail a b i j codes (la, lb) →
      Grouped a b p q (groupSplit n group codes) (la, lb) := by
  intro codes
  induction codes with
  | nil =>
      intro group p q i0 j0 i j hp hq hoff hsl hemp hne htail
      obtain ⟨hila, hjlb, hlen, hslt⟩ := htail
      simp only [groupSplit]
      cases group with
      | nil =>
          obtain ⟨hii, hjj⟩ := hemp rfl
          subst hii
          subst hjj
          simp only [groupFinal]
          exact align_glue hp hq hoff hsl hila hjlb hlen hslt
      | cons g1 grest =>
          have hval := hne (by simp)
          cases grest with
          | nil =>
              simp only [groupFinal]
              by_cases hce : g1.tag = "equal"
              · rw [if_pos hce]
                obtain ⟨hg1, hg2, hgt, hgrest⟩ := hval
                obtain ⟨hee1, hee2⟩ := hgrest
                obtain ⟨hq1, hq2, hq3, hq4⟩ := tagOK_equal_facts hgt hce
                have hop : SliceEq a b i0 j0 (i - i0) := by
                  rw [show i0 = g1.i1 from hg1.symm,
                    show j0 = g1.j1 from hg2.symm,
                    show i - g1.i1 = g1.i2 - g1.i1 by omega]
                  exact hq4
                obtain ⟨m1, m2, m3, m4⟩ :=
                  @align_glue α a b p q i0 j0 i j hp hq hoff hsl
                    (by omega) (by omega) (by omega) hop
                exact align_glue m1 m2 m3 m4 hila hjlb hlen hslt
              · rw [if_neg hce]
                exact ⟨i0, j0, i, j, hp, hq, hoff, hsl, by simp, hval,
                  hila, hjlb, hlen, hslt⟩
          | cons g2 grest2 =>
              exact ⟨i0, j0, i, j, hp, hq, hoff, hsl, by simp, hval,
                hila, hjlb, hlen, hslt⟩
  | cons c rest ih =>
      intro group p q i0 j0 i j hp hq hoff hsl hemp hne htail
      obtain ⟨hc1, hc2, hct, hctail⟩ := htail
      simp only [groupSplit]
      split
      · rename_i hsplit
        obtain ⟨hce, hbig⟩ := hsplit
        obtain ⟨hq1, hq2, hq3, hq4⟩ := tagOK_equal_facts hct hce
        have hcl : OpsValid a b i j
            [(⟨c.tag, c.i1, min c.i2 (c.i1 + n), c.j1,
              min c.j2 (c.j1 + n)⟩ : Op)]
            (min c.i2 (c.i1 + n), min c.j2 (c.j1 + n)) := by
          refine ⟨?_, ?_, ?_, ?_⟩
          · dsimp only
            omega
          · dsimp only
            omega
          · left
            dsimp only
            refine ⟨hce, by omega, by omega, by omega, ?_⟩
            exact sliceEq_restrict hq4 (min c.i2 (c.i1 + n) - c.i1) (by omega)
          · exact ⟨rfl, rfl⟩
        have hval2 : OpsValid a b i0 j0
            (group ++ [(⟨c.tag, c.i1, min c.i2 (c.i1 + n), c.j1,
              min c.j2 (c.j1 + n)⟩ : Op)])
            (min c.i2 (c.i1 + n), min c.j2 (c.j1 + n)) := by
          cases group with
          | nil =>
              obtain ⟨hii, hjj⟩ := hemp rfl
              subst hii
              subst hjj
              rw [List.nil_append]
              exact hcl
          | cons g1 grest =>
              exact opsValid_append _ _ _ _ (i, j) _ (hne (by simp)) hcl
        refine ⟨i0, j0, min c.i2 (c.i1 + n), min c.j2 (c.j1 + n),
          hp, hq, hoff, hsl, by simp, hval2, ?_⟩
        apply ih [(⟨c.tag, max c.i1 (c.i2 - n), c.i2, max c.j1 (c.j2 - n),
            c.j2⟩ : Op)]
          (min c.i2 (c.i1 + n)) (min c.j2 (c.j1 + n))
          (max c.i1 (c.i2 - n)) (max c.j1 (c.j2 - n)) c.i2 c.j2
        · omega
        · omega
        · omega
        · have hs := sliceEq_shift hq4 (min c.i2 (c.i1 + n) - c.i1) (by omega)
          rw [show c.i1 + (min c.i2 (c.i1 + n) - c.i1) = min c.i2 (c.i1 + n)
              by omega,
            show c.j1 + (min c.i2 (c.i1 + n) - c.i1) = min c.j2 (c.j1 + n)
              by omega] at hs
          exact sliceEq_restrict hs _ (by omega)
        · intro hcon
          exact absurd hcon (by simp)
        · intro _
          refine ⟨rfl, rfl, ?_, ?_⟩
          · left
            dsimp only
            refine ⟨hce, by omega, by omega, by omega, ?_⟩
            have hs := sliceEq_shift hq4 (max c.i1 (c.i2 - n) - c.i1) (by omega)
            rw [show c.i1 + (max c.i1 (c.i2 - n) - c.i1) = max c.i1 (c.i2 - n)
                by omega,
              show c.j1 + (max c.i1 (c.i2 - n) - c.i1) = max c.j1 (c.j2 - n)
                by omega,
              show c.i2 - c.i1 - (max c.i1 (c.i2 - n) - c.i1)
                = c.i2 - max c.i1 (c.i2 - n) by omega] at hs
            exact hs
          · exact ⟨rfl, rfl⟩
        · exact hctail
      · have hcop : OpsValid a b i j [c] (c.i2, c.j2) :=
          ⟨hc1, hc2, hct, rfl, rfl⟩
        apply ih (group ++ [c]) p q i0 j0 c.i2 c.j2 hp hq hoff hsl
        · intro hcon
          exact absurd hcon (by simp)
        · intro _
          cases group with
          | nil =>
              obtain ⟨hii, hjj⟩ := hemp rfl
              subst hii
              subst hjj
              rw [List.nil_append]
              exact hcop
          | cons g1 grest =>
              exact opsValid_append _ _ _ _ (i, j) _ (hne (by simp)) hcop
        · exact hctail

theorem grouped_le {α : Type} {a b : List α} :
    ∀ (gs : List (List Op)) (i j : Nat) (d : Nat × Nat),
      Grouped a b i j gs d → i ≤ d.1 ∧ j ≤ d.2 := by
  intro gs
  induction gs with
  | nil =>
      intro i j d h
      obtain ⟨h1, h2, _, _⟩ := h
      exact ⟨h1, h2⟩
  | cons g gs ih =>
      intro i j d h
      obtain ⟨i0, j0, i2, j2, h1, h2, _, _, _, hval, hrest⟩ := h
      have ha := opsValid_le g i0 j0 (i2, j2) hval
      have hb := ih i2 j2 d hrest
      dsimp only at ha
      exact ⟨by omega, by omega⟩

set_option maxHeartbeats 1600000 in
theorem getGroupedOpcodes_grouped {α : Type} [DecidableEq α] (a b : List α) :
    Grouped a b 0 0 (getGroupedOpcodes 3 a b) (a.length, b.length) := by
  have hval := getOpcodes_valid a b
  simp only [getGroupedOpcodes]
  by_cases hz : getOpcodes a b = []
  · rw [if_pos hz]
    rw [hz] at hval
    obtain ⟨h1, h2⟩ := hval
    dsimp only at h1 h2
    rw [show groupSplit 3 [] (fixLast 3 (fixHead 3 [(⟨"equal", 0, 1, 0, 1⟩ : Op)]))
        = [] by simp [groupSplit, fixHead, fixLast, groupFinal]]
    refine ⟨Nat.zero_le _, Nat.zero_le _, by dsimp only; omega, ?_⟩
    dsimp only
    rw [show a.length - 0 = 0 by omega]
    exact sliceEq_zero a b 0 0
  · rw [if_neg hz]
    obtain ⟨i0, j0, hi0, hj0, hoff, hsl, hval2⟩ := fixHead_ok 3 _ 0 0 hval
    have htail := fixLast_ok 3 _ i0 j0 hval2
    exact groupSplit_ok 3 _ [] 0 0 i0 j0 i0 j0 hi0 hj0 hoff hsl
      (fun _ => ⟨rfl, rfl⟩) (fun hc => absurd rfl hc) htail

theorem pySlice_self {α : Type} (xs : List α) (i : Nat) : pySlice xs i i = [] := by
  unfold pySlice
  simp

theorem pySlice_glue {α : Type} (xs : List α) {i j k : Nat} (hij : i ≤ j)
    (hjk : j ≤ k) : pySlice xs i j ++ pySlice xs j k = pySlice xs i k := by
  unfold pySlice
  rw [show xs.drop j = (xs.drop i).drop (j - i) by
      rw [List.drop_drop]
      congr 1
      omega]
  rw [show k - i = (j - i) + (k - j) by omega, List.take_add]

theorem pySlice_append_drop {α : Type} (xs : List α) {i j : Nat} (h : i ≤ j) :
    pySlice xs i j ++ xs.drop j = xs.drop i := by
  unfold pySlice
  rw [show xs.drop j = (xs.drop i).drop (j - i) by
      rw [List.drop_drop]
      congr 1
      omega]
  exact List.take_append_drop _ _

theorem takeWhile_all {α : Type} (p : α → Bool) :
    ∀ (xs : List α), (∀ x ∈ xs, p x = true) → xs.takeWhile p = xs := by
  intro xs
  induction xs with
  | nil =>
      intro _
      rfl
  | cons x xs ih =>
      intro h
      rw [List.takeWhile_cons, if_pos (h x (List.mem_cons_self x xs)),
        ih (fun y hy => h y (List.mem_cons_of_mem x hy))]

theorem takeWhile_append_stop {α : Type} (p : α → Bool) :
    ∀ (xs : List α) (y : α) (ys : List α), (∀ x ∈ xs, p x = true) →
      p y = false → (xs ++ y :: ys).takeWhile p = xs := by
  intro xs
  induction xs with
  | nil =>
      intro y ys _ hy
      rw [List.nil_append, List.takeWhile_cons, if_neg (by rw [hy]; exact Bool.false_ne_true)]
  | cons x xs ih =>
      intro y ys hall hy
      rw [List.cons_append, List.takeWhile_cons,
        if_pos (hall x (List.mem_cons_self x xs)),
        ih y ys (fun z hz => hall z (List.mem_cons_of_mem x hz)) hy]

theorem char_digit_ne_space {c : Char} (h48 : 48 ≤ c.toNat) :
    (!(c == ' ')) = true := by
  rw [Bool.not_eq_true', beq_eq_false_iff_ne]
  intro h
  subst h
  exact absurd h48 (by decide)

theorem char_digit_ne_comma {c : Char} (h48 : 48 ≤ c.toNat) :
    (!(c == ',')) = true := by
  rw [Bool.not_eq_true', beq_eq_false_iff_ne]
  intro h
  subst h
  exact absurd h48 (by decide)

theorem formatRange_chars (s e : Nat) :
    ∀ c ∈ (formatRangeUnified s e).data, 48 ≤ c.toNat ∧ c.toNat ≤ 57 ∨ c = ',' := by
  intro c hc
  simp only [formatRangeUnified] at hc
  split at hc
  · exact Or.inl (natDec_chars _ c hc)
  · split at hc <;>
    · rw [String.data_append, String.data_append,
        show (",").data = [','] from rfl, List.append_assoc,
        List.singleton_append] at hc
      rcases List.mem_append.mp hc with h | h
      · exact Or.inl (natDec_chars _ c h)
      · rcases List.mem_cons.mp h with h2 | h2
        · exact Or.inr h2
        · exact Or.inl (natDec_chars _ c h2)

theorem formatRange_no_space (s e : Nat) :
    ∀ c ∈ (formatRangeUnified s e).data, (!(c == ' ')) = true := by
  intro c hc
  rcases formatRange_chars s e c hc with ⟨h1, _⟩ | h
  · exact char_digit_ne_space h1
  · subst h
    decide

theorem parseRangeStart_format (s e : Nat) :
    parseRangeStart (formatRangeUnified s e).data = some s := by
  simp only [formatRangeUnified]
  by_cases h1 : e - s = 1
  · rw [if_pos h1]
    simp only [parseRangeStart]
    rw [takeWhile_all _ _ (fun c hc => char_digit_ne_comma (natDec_chars _ c hc).1),
      List.drop_length, parseNatQ_natDec]
    rfl
  · rw [if_neg h1]
    by_cases h0 : e - s = 0
    · rw [if_pos h0, h0]
      simp only [parseRangeStart]
      rw [String.data_append, String.data_append,
        show (",").data = [','] from rfl, List.append_assoc,
        List.singleton_append]
      rw [takeWhile_append_stop _ _ ',' _
        (fun c hc => char_digit_ne_comma (natDec_chars _ c hc).1) (by decide),
        List.drop_left, parseNatQ_natDec]
      dsimp only
      rw [if_pos rfl, parseNatQ_natDec]
      rfl
    · rw [if_neg h0]
      obtain ⟨m, hm⟩ : ∃ m, e - s = m + 2 := ⟨e - s - 2, by omega⟩
      rw [hm]
      simp only [parseRangeStart]
      rw [String.data_append, String.data_append,
        show (",").data = [','] from rfl, List.append_assoc,
        List.singleton_append]
      rw [takeWhile_append_stop _ _ ',' _
        (fun c hc => char_digit_ne_comma (natDec_chars _ c hc).1) (by decide),
        List.drop_left, parseNatQ_natDec]
      dsimp only
      rw [if_pos rfl, parseNatQ_natDec]
      rfl

theorem applyHunks_cons_space (a : List String) (pos : Nat) (l : String)
    (rest : List String) :
    applyHunks a pos ((" " ++ l) :: rest) =
      match a[pos]? with
      | some x =>
          if x.data = l.data then
            (applyHunks a (pos + 1) rest).map (fun out => x :: out)
          else none
      | none => none := by
  rw [applyHunks]
  rw [show (" " ++ l).data = ' ' :: l.data by simp [String.data_append]]
  rfl

theorem applyHunks_cons_minus (a : List String) (pos : Nat) (l : String)
    (rest : List String) :
    applyHunks a pos (("-" ++ l) :: rest) =
      match a[pos]? with
      | some x => if x.data = l.data then applyHunks a (pos + 1) rest else none
      | none => none := by
  rw [applyHunks]
  rw [show ("-" ++ l).data = '-' :: l.data by simp [String.data_append]]
  rfl

theorem applyHunks_cons_plus (a : List String) (pos : Nat) (l : String)
    (rest : List String) :
    applyHunks a pos (("+" ++ l) :: rest) =
      (applyHunks a pos rest).map (fun out => l :: out) := by
  rw [applyHunks]
  rw [show ("+" ++ l).data = '+' :: l.data by simp [String.data_append]]
  show (applyHunks a pos rest).map (fun out => (⟨l.data⟩ : String) :: out)
    = (applyHunks a pos rest).map (fun out => l :: out)
  have h : (⟨l.data⟩ : String) = l := by
    cases l
    rfl
  rw [h]

theorem applyHunks_cons_header (a : List String) (pos s : Nat) (f1 f2 : String)
    (rest : List String)
    (hparse : parseRangeStart (((f1 ++ " +" ++ f2 ++ " @@").data).takeWhile
      (fun c => !(c == ' '))) = some s)
    (hle : pos ≤ s) :
    applyHunks a pos (("@@ -" ++ f1 ++ " +" ++ f2 ++ " @@") :: rest) =
      (applyHunks a s rest).map (fun out => pySlice a pos s ++ out) := by
  rw [applyHunks]
  rw [show ("@@ -" ++ f1 ++ " +" ++ f2 ++ " @@").data
      = '@' :: '@' :: ' ' :: '-' :: (f1 ++ " +" ++ f2 ++ " @@").data by
    simp [String.data_append]]
  show (match parseRangeStart (((f1 ++ " +" ++ f2 ++ " @@").data).takeWhile
      (fun c => !(c == ' '))) with
    | none => none
    | some s2 =>
        if pos ≤ s2 then
          (applyHunks a s2 rest).map (fun out => pySlice a pos s2 ++ out)
        else none)
    = (applyHunks a s rest).map (fun out => pySlice a pos s ++ out)
  rw [hparse]
  dsimp only
  rw [if_pos hle]

theorem applyHunks_context_run (a : List String) :
    ∀ (k pos : Nat) (rest : List String), pos + k ≤ a.length →
      applyHunks a pos ((pySlice a pos (pos + k)).map (fun l => " " ++ l) ++ rest)
        = (applyHunks a (pos + k) rest).map
            (fun out => pySlice a pos (pos + k) ++ out) := by
  intro k
  induction k with
  | zero =>
      intro pos rest _
      rw [Nat.add_zero, pySlice_self, List.map_nil, List.nil_append]
      cases applyHunks a pos rest <;> rfl
  | succ k ih =>
      intro pos rest hb
      have hlt : pos < a.length := by omega
      have hcons : pySlice a pos (pos + (k + 1))
          = a[pos] :: pySlice a (pos + 1) (pos + 1 + k) := by
        unfold pySlice
        rw [List.drop_eq_getElem_cons hlt]
        rw [show pos + (k + 1) - pos = k + 1 by omega,
          show pos + 1 + k - (pos + 1) = k by omega]
        rfl
      rw [hcons, List.map_cons, List.cons_append, applyHunks_cons_space]
      rw [List.getElem?_eq_getElem hlt]
      dsimp only
      rw [if_pos rfl]
      rw [show pos + (k + 1) = pos + 1 + k by omega]
      rw [ih (pos + 1) rest (by omega), Option.map_map]
      rfl

theorem applyHunks_minus_run (a : List String) :
    ∀ (k pos : Nat) (rest : List String), pos + k ≤ a.length →
      applyHunks a pos ((pySlice a pos (pos + k)).map (fun l => "-" ++ l) ++ rest)
        = applyHunks a (pos + k) rest := by
  intro k
  induction k with
  | zero =>
      intro pos rest _
      rw [Nat.add_zero, pySlice_self, List.map_nil, List.nil_append]
  | succ k ih =>
      intro pos rest hb
      have hlt : pos < a.length := by omega
      have hcons : pySlice a pos (pos + (k + 1))
          = a[pos] :: pySlice a (pos + 1) (pos + 1 + k) := by
        unfold pySlice
        rw [List.drop_eq_getElem_cons hlt]
        rw [show pos + (k + 1) - pos = k + 1 by omega,
          show pos + 1 + k - (pos + 1) = k by omega]
        rfl
      rw [hcons, List.map_cons, List.cons_append, applyHunks_cons_minus]
      rw [List.getElem?_eq_getElem hlt]
      dsimp only
      rw [if_pos rfl]
      rw [show pos + (k + 1) = pos + 1 + k by omega]
      exact ih (pos + 1) rest (by omega)

theorem applyHunks_plus_run (a : List String) :
    ∀ (ls : List String) (pos : Nat) (rest : List String),
      applyHunks a pos (ls.map (fun l => "+" ++ l) ++ rest)
        = (applyHunks a pos rest).map (fun out => ls ++ out) := by
  intro ls
  induction ls with
  | nil =>
      intro pos rest
      rw [List.map_nil, List.nil_append]
      cases applyHunks a pos rest <;> rfl
  | cons x ls ih =>
      intro pos rest
      rw [List.map_cons, List.cons_append, applyHunks_cons_plus, ih,
        Option.map_map]
      rfl

theorem applyHunks_op (a b : List String) {c : Op} (hct : TagOK a b c)
    (hbound : c.i2 ≤ a.length) (rest : List String) :
    applyHunks a c.i1 (renderOp a b c ++ rest)
      = (applyHunks a c.i2 rest).map (fun out => pySlice b c.j1 c.j2 ++ out) := by
  rcases hct with ⟨htag, hle1, hle2, hlen, hsl⟩ | ⟨htag, hle1, heq⟩
    | ⟨htag, heq, hle2⟩ | ⟨htag, hle1, hle2⟩
  · rw [renderOp, if_pos htag]
    have hba : pySlice b c.j1 c.j2 = pySlice a c.i1 c.i2 := by
      have h := pySlice_eq_of_sliceEq hsl
      rw [show c.i1 + (c.i2 - c.i1) = c.i2 by omega,
        show c.j1 + (c.i2 - c.i1) = c.j2 by omega] at h
      exact h.symm
    rw [hba]
    have h := applyHunks_context_run a (c.i2 - c.i1) c.i1 rest (by omega)
    rw [show c.i1 + (c.i2 - c.i1) = c.i2 by omega] at h
    exact h
  · rw [renderOp, if_neg (by simp [htag]), if_pos (Or.inr htag),
      if_neg (by simp [htag]), List.append_nil]
    have h := applyHunks_minus_run a (c.i2 - c.i1) c.i1 rest (by omega)
    rw [show c.i1 + (c.i2 - c.i1) = c.i2 by omega] at h
    rw [h, heq, pySlice_self]
    cases applyHunks a c.i2 rest <;> rfl
  · rw [renderOp, if_neg (by simp [htag]), if_neg (by simp [htag]),
      if_pos (Or.inr htag), List.nil_append, applyHunks_plus_run, heq]
  · rw [renderOp, if_neg (by simp [htag]), if_pos (Or.inl htag),
      if_pos (Or.inl htag), List.append_assoc]
    have h := applyHunks_minus_run a (c.i2 - c.i1) c.i1
      ((pySlice b c.j1 c.j2).map (fun l => "+" ++ l) ++ rest) (by omega)
    rw [show c.i1 + (c.i2 - c.i1) = c.i2 by omega] at h
    rw [h, applyHunks_plus_run]

theorem applyHunks_ops (a b : List String) :
    ∀ (g : List Op) (i j i2 j2 : Nat), OpsValid a b i j g (i2, j2) →
      i2 ≤ a.length → ∀ (rest : List String),
      applyHunks a i ((g.map (renderOp a b)).flatten ++ rest)
        = (applyHunks a i2 rest).map (fun out => pySlice b j j2 ++ out) := by
  intro g
  induction g with
  | nil =>
      intro i j i2 j2 hval _ rest
      obtain ⟨h1, h2⟩ := hval
      dsimp only at h1 h2
      subst h1
      subst h2
      rw [List.map_nil, List.flatten_nil, List.nil_append, pySlice_self]
      cases applyHunks a i rest <;> rfl
  | cons c g ih =>
      intro i j i2 j2 hval hb rest
      obtain ⟨hc1, hc2, hct, hval2⟩ := hval
      have hle := opsValid_le g c.i2 c.j2 (i2, j2) hval2
      dsimp only at hle
      have hj12 := (tagOK_le hct).2
      rw [List.map_cons, List.flatten_cons, List.append_assoc, ← hc1]
      rw [applyHunks_op a b hct (by omega) _, ih c.i2 c.j2 i2 j2 hval2 hb _]
      cases happ : applyHunks a i2 rest with
      | none => rfl
      | some v =>
          show some (pySlice b c.j1 c.j2 ++ (pySlice b c.j2 j2 ++ v))
            = some (pySlice b j j2 ++ v)
          rw [← List.append_assoc, pySlice_glue b hj12 (by omega), hc2]

theorem parse_header_side (v e : Nat) (f2 : String) :
    parseRangeStart (((formatRangeUnified v e ++ " +" ++ f2 ++ " @@").data).takeWhile
      (fun c => !(c == ' '))) = some v := by
  rw [show (formatRangeUnified v e ++ " +" ++ f2 ++ " @@").data
      = (formatRangeUnified v e).data
        ++ ' ' :: ('+' :: (f2.data ++ [' ', '@', '@'])) by
    simp [String.data_append]]
  rw [takeWhile_append_stop _ _ ' ' _ (formatRange_no_space v e) (by decide)]
  exact parseRangeStart_format v e

theorem applyHunks_groups (a b : List String) :
    ∀ (gs : List (List Op)) (i j : Nat),
      Grouped a b i j gs (a.length, b.length) →
      applyHunks a i ((gs.map (renderGroup a b)).flatten) = some (b.drop j) := by
  intro gs
  induction gs with
  | nil =>
      intro i j h
      obtain ⟨h1, h2, h3, h4⟩ := h
      dsimp only at h1 h2 h3 h4
      rw [List.map_nil, List.flatten_nil, applyHunks]
      exact congrArg some (drop_eq_of_sliceEq h4 h3 h1 h2)
  | cons g gs ih =>
      intro i j h
      obtain ⟨i0, j0, i2, j2, hii0, hjj0, hoff, hsl, hne, hval, hrest⟩ := h
      have hb2 := grouped_le gs i2 j2 (a.length, b.length) hrest
      dsimp only at hb2
      have hvle := opsValid_le g i0 j0 (i2, j2) hval
      dsimp only at hvle
      cases g with
      | nil => exact absurd rfl hne
      | cons c0 gtail =>
          have hc1 : c0.i1 = i0 := hval.1
          rw [List.map_cons, List.flatten_cons]
          simp only [renderGroup]
          rw [List.cons_append]
          rw [applyHunks_cons_header a i c0.i1 _ _ _
            (parse_header_side c0.i1 _ _) (by omega)]
          rw [hc1]
          rw [applyHunks_ops a b (c0 :: gtail) i0 j0 i2 j2 hval (by omega) _]
          rw [ih i2 j2 hrest]
          show some (pySlice a i i0 ++ (pySlice b j0 j2 ++ List.drop j2 b))
            = some (List.drop j b)
          have hab : pySlice a i i0 = pySlice b j j0 := by
            have hpq := pySlice_eq_of_sliceEq hsl
            rw [show i + (i0 - i) = i0 by omega,
              show j + (i0 - i) = j0 by omega] at hpq
            exact hpq
          rw [pySlice_append_drop b (by omega : j0 ≤ j2), hab,
            pySlice_append_drop b (by omega : j ≤ j0)]

set_option maxHeartbeats 1600000 in
set_option linter.constructorNameAsVariable false in
theorem unifiedDiff_roundTrip (old new fromfile tofile : String) :
    applyUnifiedDiff (unifiedDiffLines (splitLines old) (splitLines new)
      fromfile tofile) old = some new := by
  unfold unifiedDiffLines
  have hg := getGroupedOpcodes_grouped (splitLines old) (splitLines new)
  cases hgs : getGroupedOpcodes 3 (splitLines old) (splitLines new) with
  | nil =>
      rw [hgs] at hg
      obtain ⟨h1, h2, h3, h4⟩ := hg
      dsimp only at h1 h2 h3 h4
      have hdrop := drop_eq_of_sliceEq h4 h3 h1 h2
      rw [List.drop_zero, List.drop_zero] at hdrop
      show some old = some new
      exact congrArg some (splitLines_inj hdrop)
  | cons g gs =>
      rw [hgs] at hg
      show (applyHunks (splitLines old) 0
        (((g :: gs).map (renderGroup (splitLines old) (splitLines new))).flatten)).map
          strJoin = some new
      rw [applyHunks_groups (splitLines old) (splitLines new) (g :: gs) 0 0 hg]
      show some (strJoin (List.drop 0 (splitLines new))) = some new
      rw [List.drop_zero, strJoin_splitLines]

set_option maxHeartbeats 1600000 in
set_option linter.constructorNameAsVariable false in
theorem generateDiff_ne_of_ne {old new : String} (h : old ≠ new) (p : String) :
    generateDiff old new p ≠ "" := by
  unfold generateDiff unifiedDiffLines
  cases hgs : getGroupedOpcodes 3 (splitLines old) (splitLines new) with
  | nil =>
      exfalso
      have hg := getGroupedOpcodes_grouped (splitLines old) (splitLines new)
      rw [hgs] at hg
      obtain ⟨h1, h2, h3, h4⟩ := hg
      dsimp only at h1 h2 h3 h4
      have hdrop := drop_eq_of_sliceEq h4 h3 h1 h2
      rw [List.drop_zero, List.drop_zero] at hdrop
      exact h (splitLines_inj hdrop)
  | cons g gs =>
      intro hcon
      have hd := congrArg String.data hcon
      simp [strJoin, String.data_append] at hd

theorem generateDiff_empty_empty (p : String) : generateDiff "" "" p = "" := rfl

theorem processFileChange_deleted (cache disk : String → Option String)
    (fsize : String → Nat) (exts ignored : List String) (path : String)
    (htrack : shouldTrackFile exts ignored path = true) :
    processFileChange cache disk fsize exts ignored path "deleted" =
      ((fun q => if q = path then none else cache q),
       if generateDiff ((cache path).getD "") "" path ≠ "" then
         [⟨path, "deleted", none, generateDiff ((cache path).getD "") "" path⟩]
       else []) := by
  unfold processFileChange
  rw [htrack]
  simp only [Bool.not_true]
  rw [if_neg Bool.false_ne_true, if_pos (by trivial)]
  by_cases hdd : generateDiff ((cache path).getD "") "" path ≠ ""
  · rw [if_pos hdd, if_pos hdd]
  · rw [if_neg hdd, if_neg hdd]

/-- C1: applying the unified diff yielded by the diff generation of
`CodeChangeHandler._generate_diff` — the sequence of lines produced by
`unified_diff` that `generateDiff` joins — to the old content reproduces the
new content exactly, for every old/new content pair; for a deletion diff
(new content empty) it reproduces the empty content; and `generateDiff` is
precisely the join of that line sequence. -/
theorem C1_diff_roundtrip (old new path : String) :
    applyUnifiedDiff (unifiedDiffLines (splitLines old) (splitLines new)
      ("a/" ++ pathName path) ("b/" ++ pathName path)) old = some new ∧
    applyUnifiedDiff (unifiedDiffLines (splitLines old) (splitLines "")
      ("a/" ++ pathName path) ("b/" ++ pathName path)) old = some "" ∧
    generateDiff old new path = strJoin (unifiedDiffLines (splitLines old)
      (splitLines new) ("a/" ++ pathName path) ("b/" ++ pathName path)) :=
  ⟨unifiedDiff_roundTrip old new _ _, unifiedDiff_roundTrip old "" _ _, rfl⟩

/-- C7 counterexample: a Snapshot-Cache entry holding the empty string is an
existing cache entry, yet processing a deleted change for it emits no
CodeChangeEvent — refuting "emits iff a cache entry existed". -/
theorem C7_counterexample :
    ((fun q => if q = "a.py" then some "" else none) : String → Option String)
        "a.py" = some "" ∧
    (processFileChange (fun q => if q = "a.py" then some "" else none)
      (fun _ => none) (fun _ => 0) [".py"] [] "a.py" "deleted").2 = [] := by
  constructor
  · rfl
  · decide

/-- C7 (amended): for a tracked path, processing a deleted change computes the
unified diff from the cached content (empty string if absent) to empty
content, removes the Snapshot-Cache entry for the path while leaving every
other key unchanged, and emits a single CodeChangeEvent carrying that diff if
and only if the cached content was non-empty (an absent entry and an entry
holding the empty string both emit nothing). -/
theorem C7_deleted_processing (cache disk : String → Option String)
    (fsize : String → Nat) (exts ignored : List String) (path : String)
    (htrack : shouldTrackFile exts ignored path = true) :
    (processFileChange cache disk fsize exts ignored path "deleted").1 path
        = none ∧
    (∀ q, q ≠ path →
      (processFileChange cache disk fsize exts ignored path "deleted").1 q
        = cache q) ∧
    (processFileChange cache disk fsize exts ignored path "deleted").2 =
      (if (cache path).getD "" ≠ "" then
        [⟨path, "deleted", none, generateDiff ((cache path).getD "") "" path⟩]
       else []) := by
  rw [processFileChange_deleted cache disk fsize exts ignored path htrack]
  refine ⟨?_, ?_, ?_⟩
  · show (if path = path then none else cache path) = none
    rw [if_pos rfl]
  · intro q hq
    show (if q = path then none else cache q) = cache q
    rw [if_neg hq]
  · dsimp only
    by_cases hd : (cache path).getD "" = ""
    · have hz : generateDiff ((cache path).getD "") "" path = "" := by
        rw [hd]
        exact generateDiff_empty_empty path
      rw [if_neg (fun hne => hne hz), if_neg (fun hne => hne hd)]
    · rw [if_pos (generateDiff_ne_of_ne hd path), if_pos hd]

/-- Witness for C7: a concrete tracked path whose cache entry holds "x". -/
theorem C7_deleted_processing_witness :
    shouldTrackFile [".py"] [] "a.py" = true ∧
    ((processFileChange (fun q => if q = "a.py" then some "x" else none)
        (fun _ => none) (fun _ => 0) [".py"] [] "a.py" "deleted").1 "a.py"
        = none ∧
     (∀ q, q ≠ "a.py" →
       (processFileChange (fun q => if q = "a.py" then some "x" else none)
         (fun _ => none) (fun _ => 0) [".py"] [] "a.py" "deleted").1 q
         = (fun q => if q = "a.py" then some "x" else none) q) ∧
     (processFileChange (fun q => if q = "a.py" then some "x" else none)
        (fun _ => none) (fun _ => 0) [".py"] [] "a.py" "deleted").2 =
       (if ((fun q => if q = "a.py" then some "x" else none) "a.py").getD ""
            ≠ "" then
         [⟨"a.py", "deleted", none,
           generateDiff
             (((fun q => if q = "a.py" then some "x" else none) "a.py").getD "")
             "" "a.py"⟩]
        else [])) :=
  ⟨by decide, C7_deleted_processing
    (fun q => if q = "a.py" then some "x" else none) (fun _ => none)
    (fun _ => 0) [".py"] [] "a.py" (by decide)⟩

/-- C8: for a tracked path processed as created or modified whose content is
readable, byte-identical content to the cached snapshot (absent entries
compared as empty string) is a complete no-op — the cache function and the
event list are returned unchanged — while differing content updates exactly
the changed key of the cache to the new content and emits exactly one
CodeChangeEvent whose diff of the change is non-empty. -/
theorem C8_created_modified (cache disk : String → Option String)
    (fsize : String → Nat) (exts ignored : List String)
    (path ct newContent : String)
    (htrack : shouldTrackFile exts ignored path = true)
    (hct : ct = "created" ∨ ct = "modified")
    (hdisk : disk path = some newContent) :
    ((cache path).getD "" = newContent →
      processFileChange cache disk fsize exts ignored path ct = (cache, [])) ∧
    ((cache path).getD "" ≠ newContent →
      (∀ q, (processFileChange cache disk fsize exts ignored path ct).1 q
          = (if q = path then some newContent else cache q)) ∧
      (processFileChange cache disk fsize exts ignored path ct).2 =
        [⟨path, ct, some (fsize path),
          generateDiff ((cache path).getD "") newContent path⟩] ∧
      generateDiff ((cache path).getD "") newContent path ≠ "") := by
  have hctne : ¬(ct = "deleted") := by
    rcases hct with h | h <;> rw [h] <;> decide
  unfold processFileChange
  rw [htrack]
  simp only [Bool.not_true]
  rw [if_neg Bool.false_ne_true, if_neg hctne, if_pos hct, hdisk]
  dsimp only
  constructor
  · intro heq
    rw [if_neg (fun hne => hne heq)]
  · intro hne
    rw [if_pos hne, if_pos (generateDiff_ne_of_ne hne path)]
    exact ⟨fun q => rfl, rfl, generateDiff_ne_of_ne hne path⟩

/-- Witness for C8: the spec scenario — `a.py` overwritten from cached "x\n"
to "x\ny\n", and a no-op rewrite of identical content. -/
theorem C8_created_modified_witness :
    shouldTrackFile [".py"] ["node_modules"] "a.py" = true ∧
    ("modified" = "created" ∨ "modified" = "modified") ∧
    ((fun q => if q = "a.py" then some "x\ny\n" else none) : String →
        Option String) "a.py" = some "x\ny\n" ∧
    ((((fun q => if q = "a.py" then some "x\n" else none) "a.py").getD ""
        = "x\ny\n" →
      processFileChange (fun q => if q = "a.py" then some "x\n" else none)
        (fun q => if q = "a.py" then some "x\ny\n" else none) (fun _ => 7)
        [".py"] ["node_modules"] "a.py" "modified"
        = ((fun q => if q = "a.py" then some "x\n" else none), [])) ∧
     (((fun q => if q = "a.py" then some "x\n" else none) "a.py").getD ""
        ≠ "x\ny\n" →
      (∀ q, (processFileChange (fun q => if q = "a.py" then some "x\n" else none)
          (fun q => if q = "a.py" then some "x\ny\n" else none) (fun _ => 7)
          [".py"] ["node_modules"] "a.py" "modified").1 q
          = (if q = "a.py" then some "x\ny\n"
             else (fun q => if q = "a.py" then some "x\n" else none) q)) ∧
      (processFileChange (fun q => if q = "a.py" then some "x\n" else none)
          (fun q => if q = "a.py" then some "x\ny\n" else none) (fun _ => 7)
          [".py"] ["node_modules"] "a.py" "modified").2 =
        [⟨"a.py", "modified", some 7,
          generateDiff
            (((fun q => if q = "a.py" then some "x\n" else none) "a.py").getD "")
            "x\ny\n" "a.py"⟩] ∧
      generateDiff
          (((fun q => if q = "a.py" then some "x\n" else none) "a.py").getD "")
          "x\ny\n" "a.py" ≠ "")) :=
  ⟨by decide, Or.inr rfl, rfl,
    C8_created_modified (fun q => if q = "a.py" then some "x\n" else none)
      (fun q => if q = "a.py" then some "x\ny\n" else none) (fun _ => 7)
      [".py"] ["node_modules"] "a.py" "modified" "x\ny\n"
      (by decide) (Or.inr rfl) rfl⟩

end Onloq
